import Mathlib

/-!
Verification of the HOOMD-blue GPU particle-migration core
(mpcd/ParticleData.cu) and the distance-constraint force solver
(ForceDistanceConstraintGPU.cu / ForceDistanceConstraintGPU.cc),
via a shallow embedding in Lean.

Conventions:
  - machine scalars (double / Scalar) are embedded as rationals;
  - Scalar4 is a 4-wide record (x, y, z, w);
  - unsigned ints are embedded as naturals (bit operations use
    Nat.land / Nat.xor with the 32-bit all-ones word where the C code
    uses bitwise AND / complement);
  - device arrays are embedded as functions from indices, written with
    Function.update; kernels run their threads as a sequential fold in
    thread-index order;
  - external CUDA library calls (cuSPARSE / cuSOLVER) are oracles:
    their outputs are inputs of the model.
-/

namespace Hoomd

/-- Three-component vector over the rationals (x, y, z of a Scalar4). -/
abbrev Vec3 : Type := ℚ × ℚ × ℚ

/-- Dot product of two 3-vectors. -/
def dot (a b : Vec3) : ℚ := a.1 * b.1 + a.2.1 * b.2.1 + a.2.2 * b.2.2

/-- A 4-wide scalar record: 3 coordinates plus one auxiliary scalar
(type code for positions, mass for velocities). -/
structure Scalar4 where
  x : ℚ
  y : ℚ
  z : ℚ
  w : ℚ
deriving DecidableEq

/-- The vector part of a Scalar4 (drops the auxiliary w component). -/
def s4v (s : Scalar4) : Vec3 := (s.x, s.y, s.z)

/-- make_scalar4 from the CUDA sources. -/
def make_scalar4 (x y z w : ℚ) : Scalar4 := ⟨x, y, z, w⟩

/-- The simulation box, an external collaborator (BoxDim is outside this
core); only its minimum-image map is used by the kernels, so it is kept
abstract as a function. -/
structure Box where
  minImage : Vec3 → Vec3

/-- The identity box: minimum image is a no-op (a box larger than any
separation that occurs). -/
def openBox : Box := ⟨fun v => v⟩

/-- 32-bit all-ones word, used to embed the C bitwise complement of an
unsigned int mask: for mask < 2^32, ~mask = ones32 ^^^ mask. -/
def ones32 : ℕ := 2 ^ 32 - 1

end Hoomd

namespace Hoomd

/-!
## GPU particle-data migration (mpcd/ParticleData.cu)

The flag classifier (mark_removed_particles kernel), the stream
partitioner (partition_particles), and the compactor
(remove_particles / add_particles kernels). Device arrays are functions
from indices; each kernel runs its threads as a fold in thread order,
which is faithful because every output slot is written by exactly one
thread.
-/

/-- A packed transfer element (mpcd::detail::pdata_element). -/
structure PDataElement where
  pos : Scalar4
  vel : Scalar4
  tag : ℕ
  comm_flag : ℕ
deriving DecidableEq

/-- The structure-of-arrays particle data: positions, velocities, tags
and communication flags, indexed by the particle index. -/
structure PArrays where
  pos : ℕ → Scalar4
  vel : ℕ → Scalar4
  tag : ℕ → ℕ
  comm : ℕ → ℕ

/-- mpcd::gpu::kernel::mark_removed_particles: the keep flag of particle
idx is 1 exactly when its communication flags have no bit of the mask
set ((d_comm_flags[idx] & mask) ? 0 : 1).  The kernel also writes the
identity array d_tmp_id[idx] = idx; the partitioner below partitions
those identity indices directly. -/
def mark_removed_particles (comm_flags : List ℕ) (mask : ℕ) : List Bool :=
  comm_flags.map (fun f => Nat.land f mask == 0)

/-- Exclusive prefix count of keep=true flags strictly before index i. -/
def exclusiveTrue (keep : List Bool) (i : ℕ) : ℕ := (keep.take i).count true

/-- Exclusive prefix count of keep=false flags strictly before index i. -/
def exclusiveFalse (keep : List Bool) (i : ℕ) : ℕ := (keep.take i).count false

/-- The number of selected (kept) particles K reported by the
partitioner (d_num_select). -/
def numSelect (keep : List Bool) : ℕ := keep.count true

/-- Modelled from the spec: the output slot of source index i under the
prefix-sum scatter of section 4.2 (the implementation behind
mpcd::gpu::partition_particles is the vendored external
cub::DevicePartition::Flagged, whose body is not part of this source
tree): a kept element goes to the exclusive prefix sum of the keep
predicate, a removed element to K plus the exclusive prefix sum of the
complementary predicate. -/
def slotOf (keep : List Bool) (i : ℕ) : ℕ :=
  if keep.getD i false then exclusiveTrue keep i
  else numSelect keep + exclusiveFalse keep i

/-- Modelled from the spec: mpcd::gpu::partition_particles
(cub::DevicePartition::Flagged over the identity index array, external
to this source tree) as the spec section 4.2 prefix-sum scatter: the
output array holds, at the slot computed by slotOf, the source index
scattered there. -/
def partition_particles (keep : List Bool) : List ℕ :=
  (List.range keep.length).foldl
    (fun acc i => acc.set (slotOf keep i) i)
    (List.replicate keep.length 0)

/-- Reference list of kept indices in original order, offset by off. -/
def keptIdxAux : List Bool → ℕ → List ℕ
  | [], _ => []
  | true :: rest, off => off :: keptIdxAux rest (off + 1)
  | false :: rest, off => keptIdxAux rest (off + 1)

/-- Reference list of removed indices in original order, offset by off. -/
def removedIdxAux : List Bool → ℕ → List ℕ
  | [], _ => []
  | true :: rest, off => removedIdxAux rest (off + 1)
  | false :: rest, off => off :: removedIdxAux rest (off + 1)

/-- Reference stable two-way partition: indices with keep=true first in
original order, then indices with keep=false in original order. -/
def stable_partition (keep : List Bool) : List ℕ :=
  keptIdxAux keep 0 ++ removedIdxAux keep 0

/-- mpcd::gpu::kernel::remove_particles, one thread: read the source
index from d_scan, then route the packed record either to the outbound
buffer (thread index at or past n_keep) or to the alternate local
arrays. -/
def remove_thread (d_scan : ℕ → ℕ) (n_keep : ℕ) (src : PArrays)
    (st : PArrays × (ℕ → PDataElement)) (idx : ℕ) :
    PArrays × (ℕ → PDataElement) :=
  let pid := d_scan idx
  let pos := src.pos pid
  let vel := src.vel pid
  let tag := src.tag pid
  let flag := src.comm pid
  if n_keep ≤ idx then
    (st.1, Function.update st.2 (idx - n_keep) ⟨pos, vel, tag, flag⟩)
  else
    ({ pos := Function.update st.1.pos idx pos,
       vel := Function.update st.1.vel idx vel,
       tag := Function.update st.1.tag idx tag,
       comm := Function.update st.1.comm idx flag }, st.2)

/-- mpcd::gpu::kernel::remove_particles over all N threads: returns the
alternate (compacted) local arrays and the outbound transfer buffer. -/
def remove_particles (d_scan : ℕ → ℕ) (n_keep N : ℕ) (src : PArrays)
    (alt : PArrays) (out : ℕ → PDataElement) :
    PArrays × (ℕ → PDataElement) :=
  (List.range N).foldl (remove_thread d_scan n_keep src) (alt, out)

/-- mpcd::gpu::kernel::add_particles: append entry idx of the inbound
packed buffer at local index old_nparticles + idx, clearing the masked
migration bits of its communication flags on write. -/
def add_particles (old_nparticles num_add_ptls : ℕ) (arrs : PArrays)
    (d_in : ℕ → PDataElement) (mask : ℕ) : PArrays :=
  (List.range num_add_ptls).foldl
    (fun a idx =>
      let p := d_in idx
      let add_idx := old_nparticles + idx
      { pos := Function.update a.pos add_idx p.pos,
        vel := Function.update a.vel add_idx p.vel,
        tag := Function.update a.tag add_idx p.tag,
        comm := Function.update a.comm add_idx
                  (Nat.land p.comm_flag (Nat.xor ones32 mask)) })
    arrs

end Hoomd

namespace Hoomd

/-! ### Stream partitioner correctness (C1): the prefix-sum scatter
realizes a stable two-way partition. -/

theorem count_true_add_count_false (l : List Bool) :
    l.count true + l.count false = l.length := by
  induction l with
  | nil => simp
  | cons b t ih => cases b <;> simp [List.count_cons] <;> omega

theorem exclusiveTrue_succ (keep : List Bool) (i : ℕ) (h : i < keep.length) :
    exclusiveTrue keep (i + 1) =
      exclusiveTrue keep i + (if keep.getD i false then 1 else 0) := by
  unfold exclusiveTrue
  rw [List.take_succ, List.count_append, List.getD_eq_getElem?_getD,
    List.getElem?_eq_getElem h]
  cases hb : keep[i] <;> simp [hb]

theorem exclusiveFalse_succ (keep : List Bool) (i : ℕ) (h : i < keep.length) :
    exclusiveFalse keep (i + 1) =
      exclusiveFalse keep i + (if keep.getD i false then 0 else 1) := by
  unfold exclusiveFalse
  rw [List.take_succ, List.count_append, List.getD_eq_getElem?_getD,
    List.getElem?_eq_getElem h]
  cases hb : keep[i] <;> simp [hb]

theorem exclusiveTrue_mono (keep : List Bool) {i j : ℕ} (h : i ≤ j) :
    exclusiveTrue keep i ≤ exclusiveTrue keep j := by
  unfold exclusiveTrue
  rw [show keep.take i = (keep.take j).take i by
    rw [List.take_take, Nat.min_eq_left h]]
  exact (List.take_sublist _ _).count_le _

theorem exclusiveFalse_mono (keep : List Bool) {i j : ℕ} (h : i ≤ j) :
    exclusiveFalse keep i ≤ exclusiveFalse keep j := by
  unfold exclusiveFalse
  rw [show keep.take i = (keep.take j).take i by
    rw [List.take_take, Nat.min_eq_left h]]
  exact (List.take_sublist _ _).count_le _

theorem exclusiveTrue_le (keep : List Bool) (i : ℕ) :
    exclusiveTrue keep i ≤ numSelect keep :=
  (List.take_sublist _ _).count_le _

theorem exclusiveFalse_le (keep : List Bool) (i : ℕ) :
    exclusiveFalse keep i ≤ keep.count false :=
  (List.take_sublist _ _).count_le _

theorem exclusiveTrue_lt (keep : List Bool) (i : ℕ) (h : i < keep.length)
    (hk : keep.getD i false = true) :
    exclusiveTrue keep i < numSelect keep := by
  have h1 := exclusiveTrue_succ keep i h
  have h2 := exclusiveTrue_le keep (i + 1)
  rw [hk] at h1
  simp at h1
  omega

theorem exclusiveFalse_slot_lt (keep : List Bool) (i : ℕ) (h : i < keep.length)
    (hk : keep.getD i false = false) :
    numSelect keep + exclusiveFalse keep i < keep.length := by
  have h1 := exclusiveFalse_succ keep i h
  have h2 := exclusiveFalse_le keep (i + 1)
  have h3 := count_true_add_count_false keep
  rw [hk] at h1
  simp at h1
  unfold numSelect
  omega

theorem slotOf_lt (keep : List Bool) (i : ℕ) (h : i < keep.length) :
    slotOf keep i < keep.length := by
  unfold slotOf
  cases hk : keep.getD i false with
  | false =>
      simpa [hk] using exclusiveFalse_slot_lt keep i h hk
  | true =>
      have h1 := exclusiveTrue_lt keep i h hk
      have h2 : numSelect keep ≤ keep.length := List.count_le_length _ _
      simp [hk]
      omega

theorem slotOf_inj (keep : List Bool) {i j : ℕ} (hi : i < keep.length)
    (hj : j < keep.length) (hne : i ≠ j) : slotOf keep i ≠ slotOf keep j := by
  wlog hij : i < j generalizing i j
  · exact (this hj hi (Ne.symm hne) (by omega)).symm
  have hsucci : i + 1 ≤ j := hij
  unfold slotOf
  cases hki : keep.getD i false with
  | false =>
      cases hkj : keep.getD j false with
      | false =>
          have h1 := exclusiveFalse_succ keep i hi
          have h2 := exclusiveFalse_mono keep hsucci
          rw [hki] at h1
          simp at h1
          simp
          omega
      | true =>
          have h1 := exclusiveTrue_lt keep j hj hkj
          simp
          omega
  | true =>
      cases hkj : keep.getD j false with
      | false =>
          have h1 := exclusiveTrue_lt keep i hi hki
          simp
          omega
      | true =>
          have h1 := exclusiveTrue_succ keep i hi
          have h2 := exclusiveTrue_mono keep hsucci
          rw [hki] at h1
          simp at h1
          simp
          omega

theorem scatter_get_ne {l : List ℕ} {f : ℕ → ℕ} {A : List ℕ} {j : ℕ}
    (h : ∀ i ∈ l, f i ≠ j) :
    (l.foldl (fun acc i => acc.set (f i) i) A)[j]? = A[j]? := by
  induction l generalizing A with
  | nil => rfl
  | cons a t ih =>
      simp only [List.foldl_cons]
      rw [ih fun i hi => h i (List.mem_cons_of_mem a hi)]
      exact List.getElem?_set_ne (h a (List.mem_cons_self a t))

theorem scatter_length (l : List ℕ) (f : ℕ → ℕ) (A : List ℕ) :
    (l.foldl (fun acc i => acc.set (f i) i) A).length = A.length := by
  induction l generalizing A with
  | nil => rfl
  | cons a t ih => simp only [List.foldl_cons]; rw [ih]; simp

theorem scatter_get_eq (l : List ℕ) (f : ℕ → ℕ) :
    ∀ (A : List ℕ), l.Nodup → (∀ x ∈ l, ∀ y ∈ l, f x = f y → x = y) →
    (∀ x ∈ l, f x < A.length) → ∀ i ∈ l,
    (l.foldl (fun acc i => acc.set (f i) i) A)[f i]? = some i := by
  induction l with
  | nil => intro A _ _ _ i hi; cases hi
  | cons a t ih =>
      intro A hnd hinj hbd i hi
      simp only [List.foldl_cons]
      rcases List.mem_cons.mp hi with rfl | hit
      · rw [scatter_get_ne fun x hx => by
          intro hfx
          have hxa : x = i := hinj x (List.mem_cons_of_mem i hx) i
            (List.mem_cons_self i t) hfx
          exact (List.nodup_cons.mp hnd).1 (hxa ▸ hx)]
        exact List.getElem?_set_self (hbd i (List.mem_cons_self i t))
      · exact ih (A.set (f a) a) (List.nodup_cons.mp hnd).2
          (fun x hx y hy => hinj x (List.mem_cons_of_mem a hx) y
            (List.mem_cons_of_mem a hy))
          (fun x hx => by
            rw [List.length_set]
            exact hbd x (List.mem_cons_of_mem a hx))
          i hit

theorem keptIdxAux_length (keep : List Bool) :
    ∀ off, (keptIdxAux keep off).length = keep.count true := by
  induction keep with
  | nil => intro off; rfl
  | cons b t ih =>
      intro off
      cases b <;> simp [keptIdxAux, List.count_cons, ih]

theorem removedIdxAux_length (keep : List Bool) :
    ∀ off, (removedIdxAux keep off).length = keep.count false := by
  induction keep with
  | nil => intro off; rfl
  | cons b t ih =>
      intro off
      cases b <;> simp [removedIdxAux, List.count_cons, ih]

theorem keptIdxAux_getElem? (keep : List Bool) :
    ∀ (off i : ℕ), i < keep.length → keep.getD i false = true →
    (keptIdxAux keep off)[exclusiveTrue keep i]? = some (off + i) := by
  induction keep with
  | nil => intro off i hi; simp at hi
  | cons b t ih =>
      intro off i hi hk
      cases i with
      | zero =>
          have hb : b = true := by simpa using hk
          subst hb
          simp [keptIdxAux, exclusiveTrue]
      | succ i =>
          have hi' : i < t.length := by simpa using hi
          have hk' : t.getD i false = true := by simpa using hk
          cases b with
          | false =>
              have hT : exclusiveTrue (false :: t) (i + 1) =
                  exclusiveTrue t i := by
                simp [exclusiveTrue, List.count_cons]
              rw [hT]
              simp only [keptIdxAux]
              rw [ih (off + 1) i hi' hk']
              congr 1
              omega
          | true =>
              have hT : exclusiveTrue (true :: t) (i + 1) =
                  exclusiveTrue t i + 1 := by
                simp [exclusiveTrue, List.count_cons]
              rw [hT]
              simp only [keptIdxAux, List.getElem?_cons_succ]
              rw [ih (off + 1) i hi' hk']
              congr 1
              omega

theorem removedIdxAux_getElem? (keep : List Bool) :
    ∀ (off i : ℕ), i < keep.length → keep.getD i false = false →
    (removedIdxAux keep off)[exclusiveFalse keep i]? = some (off + i) := by
  induction keep with
  | nil => intro off i hi; simp at hi
  | cons b t ih =>
      intro off i hi hk
      cases i with
      | zero =>
          have hb : b = false := by simpa using hk
          subst hb
          simp [removedIdxAux, exclusiveFalse]
      | succ i =>
          have hi' : i < t.length := by simpa using hi
          have hk' : t.getD i false = false := by simpa using hk
          cases b with
          | true =>
              have hT : exclusiveFalse (true :: t) (i + 1) =
                  exclusiveFalse t i := by
                simp [exclusiveFalse, List.count_cons]
              rw [hT]
              simp only [removedIdxAux]
              rw [ih (off + 1) i hi' hk']
              congr 1
              omega
          | false =>
              have hT : exclusiveFalse (false :: t) (i + 1) =
                  exclusiveFalse t i + 1 := by
                simp [exclusiveFalse, List.count_cons]
              rw [hT]
              simp only [removedIdxAux, List.getElem?_cons_succ]
              rw [ih (off + 1) i hi' hk']
              congr 1
              omega

theorem keptIdxAux_mem (keep : List Bool) :
    ∀ (off x : ℕ), x ∈ keptIdxAux keep off →
      off ≤ x ∧ x - off < keep.length ∧ keep.getD (x - off) false = true := by
  induction keep with
  | nil => intro off x hx; simp [keptIdxAux] at hx
  | cons b t ih =>
      intro off x hx
      cases b with
      | true =>
          simp only [keptIdxAux, List.mem_cons] at hx
          rcases hx with rfl | hx
          · refine ⟨le_refl _, by simp, by simp⟩
          · obtain ⟨h1, h2, h3⟩ := ih (off + 1) x hx
            refine ⟨by omega, by simp; omega, ?_⟩
            rw [show x - off = (x - (off + 1)) + 1 by omega]
            simpa using h3
      | false =>
          simp only [keptIdxAux] at hx
          obtain ⟨h1, h2, h3⟩ := ih (off + 1) x hx
          refine ⟨by omega, by simp; omega, ?_⟩
          rw [show x - off = (x - (off + 1)) + 1 by omega]
          simpa using h3

theorem removedIdxAux_mem (keep : List Bool) :
    ∀ (off x : ℕ), x ∈ removedIdxAux keep off →
      off ≤ x ∧ x - off < keep.length ∧ keep.getD (x - off) false = false := by
  induction keep with
  | nil => intro off x hx; simp [removedIdxAux] at hx
  | cons b t ih =>
      intro off x hx
      cases b with
      | false =>
          simp only [removedIdxAux, List.mem_cons] at hx
          rcases hx with rfl | hx
          · refine ⟨le_refl _, by simp, by simp⟩
          · obtain ⟨h1, h2, h3⟩ := ih (off + 1) x hx
            refine ⟨by omega, by simp; omega, ?_⟩
            rw [show x - off = (x - (off + 1)) + 1 by omega]
            simpa using h3
      | true =>
          simp only [removedIdxAux] at hx
          obtain ⟨h1, h2, h3⟩ := ih (off + 1) x hx
          refine ⟨by omega, by simp; omega, ?_⟩
          rw [show x - off = (x - (off + 1)) + 1 by omega]
          simpa using h3

theorem keptIdxAux_nodup (keep : List Bool) :
    ∀ off, (keptIdxAux keep off).Nodup := by
  induction keep with
  | nil => intro off; simp [keptIdxAux]
  | cons b t ih =>
      intro off
      cases b with
      | false => simpa [keptIdxAux] using ih (off + 1)
      | true =>
          simp only [keptIdxAux, List.nodup_cons]
          refine ⟨fun hmem => ?_, ih (off + 1)⟩
          have := (keptIdxAux_mem t (off + 1) off hmem).1
          omega

theorem removedIdxAux_nodup (keep : List Bool) :
    ∀ off, (removedIdxAux keep off).Nodup := by
  induction keep with
  | nil => intro off; simp [removedIdxAux]
  | cons b t ih =>
      intro off
      cases b with
      | true => simpa [removedIdxAux] using ih (off + 1)
      | false =>
          simp only [removedIdxAux, List.nodup_cons]
          refine ⟨fun hmem => ?_, ih (off + 1)⟩
          have := (removedIdxAux_mem t (off + 1) off hmem).1
          omega

theorem stable_partition_length (keep : List Bool) :
    (stable_partition keep).length = keep.length := by
  unfold stable_partition
  rw [List.length_append, keptIdxAux_length, removedIdxAux_length]
  exact count_true_add_count_false keep

theorem stable_partition_nodup (keep : List Bool) :
    (stable_partition keep).Nodup := by
  unfold stable_partition
  rw [List.nodup_append]
  refine ⟨keptIdxAux_nodup _ _, removedIdxAux_nodup _ _, ?_⟩
  intro x hx hx'
  have h1 := (keptIdxAux_mem keep 0 x hx).2.2
  have h2 := (removedIdxAux_mem keep 0 x hx').2.2
  rw [h1] at h2
  cases h2

theorem stable_partition_forward (keep : List Bool) {i : ℕ}
    (hi : i < keep.length) :
    (stable_partition keep)[slotOf keep i]? = some i := by
  cases hk : keep.getD i false with
  | false =>
      have hs : slotOf keep i = numSelect keep + exclusiveFalse keep i := by
        unfold slotOf
        rw [hk]
        simp
      rw [hs]
      unfold stable_partition
      rw [List.getElem?_append_right (by
        rw [keptIdxAux_length]
        unfold numSelect
        omega)]
      rw [keptIdxAux_length]
      rw [show numSelect keep + exclusiveFalse keep i - keep.count true =
        exclusiveFalse keep i by unfold numSelect; omega]
      simpa using removedIdxAux_getElem? keep 0 i hi hk
  | true =>
      have hs : slotOf keep i = exclusiveTrue keep i := by
        unfold slotOf
        rw [hk]
        simp
      rw [hs]
      unfold stable_partition
      rw [List.getElem?_append_left (by
        rw [keptIdxAux_length]
        exact exclusiveTrue_lt keep i hi hk)]
      simpa using keptIdxAux_getElem? keep 0 i hi hk

/-- C1: for every boolean keep-array, the partitioner output equals the
reference stable two-way partition: the selected count K is the number
of keep=true entries (and equals the length of the kept block), indices
with keep=true come first in their original relative order, and indices
with keep=false follow in their original relative order. -/
theorem c1_partition_matches_stable_partition (keep : List Bool) :
    partition_particles keep = stable_partition keep ∧
    numSelect keep = keep.count true ∧
    (keptIdxAux keep 0).length = numSelect keep := by
  refine ⟨?_, rfl, keptIdxAux_length keep 0⟩
  have hperm_len : (partition_particles keep).length = keep.length := by
    unfold partition_particles
    rw [scatter_length, List.length_replicate]
  have hsp_len := stable_partition_length keep
  apply List.ext_getElem?
  intro j
  by_cases hj : j < keep.length
  · have hjs : j < (stable_partition keep).length := by omega
    obtain ⟨i, hsome⟩ : ∃ i, (stable_partition keep)[j]? = some i := by
      rw [List.getElem?_eq_getElem hjs]
      exact ⟨_, rfl⟩
    have hmem : i ∈ stable_partition keep := List.getElem?_mem hsome
    have hi : i < keep.length := by
      rcases List.mem_append.mp hmem with hk | hk
      · have := (keptIdxAux_mem keep 0 _ hk).2.1
        omega
      · have := (removedIdxAux_mem keep 0 _ hk).2.1
        omega
    have hfwd := stable_partition_forward keep hi
    have hslot : slotOf keep i = j := by
      apply List.getElem?_inj (by
          rw [hsp_len]
          exact slotOf_lt keep _ hi)
        (stable_partition_nodup keep)
      rw [hfwd, hsome]
    have hsc := scatter_get_eq (List.range keep.length) (slotOf keep)
      (List.replicate keep.length 0) (List.nodup_range _)
      (fun x hx y hy hxy => by
        by_contra hne
        exact slotOf_inj keep (List.mem_range.mp hx) (List.mem_range.mp hy)
          hne hxy)
      (fun x hx => by
        rw [List.length_replicate]
        exact slotOf_lt keep x (List.mem_range.mp hx))
      _ (List.mem_range.mpr hi)
    rw [hslot] at hsc
    unfold partition_particles
    rw [hsc, hsome]
  · rw [List.getElem?_eq_none (by omega), List.getElem?_eq_none (by omega)]

end Hoomd

namespace Hoomd

/-- C3: the worked example from the source documentation. Status flags
[0,1,1,0,0] under mask 1 classify to keep = [true,false,false,true,true];
the partitioner reports K = 3 and the permutation [0,3,4,1,2]; and the
compaction kernel places the records of source particles 0, 3, 4 into
local slots 0, 1, 2 and the records of source particles 1, 2 into
outbound buffer slots 0, 1. -/
theorem c3_concrete_scenario (src : PArrays) (alt : PArrays)
    (out : ℕ → PDataElement) :
    mark_removed_particles [0, 1, 1, 0, 0] 1 =
      [true, false, false, true, true] ∧
    numSelect (mark_removed_particles [0, 1, 1, 0, 0] 1) = 3 ∧
    partition_particles (mark_removed_particles [0, 1, 1, 0, 0] 1) =
      [0, 3, 4, 1, 2] ∧
    (let perm := partition_particles (mark_removed_particles [0, 1, 1, 0, 0] 1)
     let res := remove_particles (fun i => perm.getD i 0) 3 5 src alt out
     (res.1.pos 0 = src.pos 0 ∧ res.1.vel 0 = src.vel 0 ∧
      res.1.tag 0 = src.tag 0 ∧ res.1.comm 0 = src.comm 0) ∧
     (res.1.pos 1 = src.pos 3 ∧ res.1.vel 1 = src.vel 3 ∧
      res.1.tag 1 = src.tag 3 ∧ res.1.comm 1 = src.comm 3) ∧
     (res.1.pos 2 = src.pos 4 ∧ res.1.vel 2 = src.vel 4 ∧
      res.1.tag 2 = src.tag 4 ∧ res.1.comm 2 = src.comm 4) ∧
     res.2 0 = ⟨src.pos 1, src.vel 1, src.tag 1, src.comm 1⟩ ∧
     res.2 1 = ⟨src.pos 2, src.vel 2, src.tag 2, src.comm 2⟩) := by
  refine ⟨by decide, by decide, by decide, ?_⟩
  exact ⟨⟨rfl, rfl, rfl, rfl⟩, ⟨rfl, rfl, rfl, rfl⟩, ⟨rfl, rfl, rfl, rfl⟩,
    rfl, rfl⟩

end Hoomd

namespace Hoomd

/-! ### Generic lemmas about folds of pointwise function updates,
used for the compactor kernels (each output slot is written by exactly
one thread). -/

theorem foldl_update_ne {α : Type} (key : ℕ → ℕ) (v : ℕ → α) :
    ∀ (l : List ℕ) (g : ℕ → α) (k : ℕ), (∀ i ∈ l, key i ≠ k) →
    (l.foldl (fun g i => Function.update g (key i) (v i)) g) k = g k := by
  intro l
  induction l with
  | nil => intro g k _; rfl
  | cons a t ih =>
      intro g k h
      simp only [List.foldl_cons]
      rw [ih _ k fun i hi => h i (List.mem_cons_of_mem a hi)]
      exact Function.update_noteq (h a (List.mem_cons_self a t)).symm _ _

theorem foldl_update_eq {α : Type} (key : ℕ → ℕ) (v : ℕ → α) :
    ∀ (l : List ℕ) (g : ℕ → α) (t : ℕ), t ∈ l →
    (∀ s ∈ l, key s = key t → v s = v t) →
    (l.foldl (fun g i => Function.update g (key i) (v i)) g) (key t) = v t := by
  intro l
  induction l with
  | nil => intro g t ht; cases ht
  | cons a rest ih =>
      intro g t ht h
      simp only [List.foldl_cons]
      by_cases hrest : ∃ s ∈ rest, key s = key t
      · obtain ⟨s, hs, hks⟩ := hrest
        rw [← hks]
        rw [ih _ s hs fun u hu hku =>
          (h u (List.mem_cons_of_mem a hu) (hku.trans hks)).trans
            (h s (List.mem_cons_of_mem a hs) hks).symm]
        exact h s (List.mem_cons_of_mem a hs) hks
      · push_neg at hrest
        have hta : t = a := by
          rcases List.mem_cons.mp ht with rfl | htr
          · rfl
          · exact absurd rfl (hrest t htr)
        rw [foldl_update_ne key v rest _ _ (fun i hi => hrest i hi)]
        rw [hta, Function.update_same]

theorem foldl_cupdate_ne {α : Type} (c : ℕ → Prop) [DecidablePred c]
    (key : ℕ → ℕ) (v : ℕ → α) :
    ∀ (l : List ℕ) (g : ℕ → α) (k : ℕ), (∀ i ∈ l, c i → key i ≠ k) →
    (l.foldl (fun g i => if c i then Function.update g (key i) (v i) else g) g) k
      = g k := by
  intro l
  induction l with
  | nil => intro g k _; rfl
  | cons a t ih =>
      intro g k h
      simp only [List.foldl_cons]
      rw [ih _ k fun i hi => h i (List.mem_cons_of_mem a hi)]
      by_cases hc : c a
      · rw [if_pos hc]
        exact Function.update_noteq (h a (List.mem_cons_self a t) hc).symm _ _
      · rw [if_neg hc]

theorem foldl_cupdate_eq {α : Type} (c : ℕ → Prop) [DecidablePred c]
    (key : ℕ → ℕ) (v : ℕ → α) :
    ∀ (l : List ℕ) (g : ℕ → α) (t : ℕ), t ∈ l → c t →
    (∀ s ∈ l, c s → key s = key t → v s = v t) →
    (l.foldl (fun g i => if c i then Function.update g (key i) (v i) else g) g)
      (key t) = v t := by
  intro l
  induction l with
  | nil => intro g t ht; cases ht
  | cons a rest ih =>
      intro g t ht hct h
      simp only [List.foldl_cons]
      by_cases hrest : ∃ s ∈ rest, c s ∧ key s = key t
      · obtain ⟨s, hs, hcs, hks⟩ := hrest
        rw [← hks]
        rw [ih _ s hs hcs fun u hu hcu hku =>
          (h u (List.mem_cons_of_mem a hu) hcu (hku.trans hks)).trans
            (h s (List.mem_cons_of_mem a hs) hcs hks).symm]
        exact h s (List.mem_cons_of_mem a hs) hcs hks
      · push_neg at hrest
        have hta : t = a := by
          rcases List.mem_cons.mp ht with rfl | htr
          · rfl
          · exact absurd rfl (hrest t htr hct)
        rw [foldl_cupdate_ne c key v rest _ _ (fun i hi hci => hrest i hi hci)]
        subst hta
        rw [if_pos hct, Function.update_same]

/-! ### Compactor kernels: per-field characterizations. -/

/-- The packed record of particle pid in the source arrays. -/
def packElement (src : PArrays) (pid : ℕ) : PDataElement :=
  ⟨src.pos pid, src.vel pid, src.tag pid, src.comm pid⟩

theorem remove_particles_out (d_scan : ℕ → ℕ) (n_keep : ℕ) (src : PArrays) :
    ∀ (l : List ℕ) (st : PArrays × (ℕ → PDataElement)),
    (l.foldl (remove_thread d_scan n_keep src) st).2 =
      l.foldl
        (fun g idx => if n_keep ≤ idx then
          Function.update g (idx - n_keep) (packElement src (d_scan idx))
          else g) st.2 := by
  intro l
  induction l with
  | nil => intro st; rfl
  | cons a t ih =>
      intro st
      simp only [List.foldl_cons]
      rw [ih]
      by_cases h : n_keep ≤ a <;>
        simp [remove_thread, packElement, h]

/-- The outbound transfer buffer holds, at slot idx − n_keep, the packed
record of the source particle d_scan idx, for every removed thread
(n_keep ≤ idx < N). -/
theorem remove_particles_out_slot (d_scan : ℕ → ℕ) (n_keep N : ℕ)
    (src alt : PArrays) (out : ℕ → PDataElement) (idx : ℕ)
    (h1 : n_keep ≤ idx) (h2 : idx < N) :
    (remove_particles d_scan n_keep N src alt out).2 (idx - n_keep) =
      packElement src (d_scan idx) := by
  unfold remove_particles
  rw [remove_particles_out]
  exact foldl_cupdate_eq (fun i => n_keep ≤ i)
    (fun i => i - n_keep) (fun i => packElement src (d_scan i))
    (List.range N) out idx (List.mem_range.mpr h2) h1
    (fun s hs hcs hks => by
      have hks2 : s - n_keep = idx - n_keep := hks
      have : s = idx := by omega
      rw [this])

theorem add_particles_fields (old_nparticles : ℕ) (d_in : ℕ → PDataElement)
    (mask : ℕ) :
    ∀ (l : List ℕ) (a : PArrays),
    (l.foldl
      (fun a idx =>
        let p := d_in idx
        let add_idx := old_nparticles + idx
        { pos := Function.update a.pos add_idx p.pos,
          vel := Function.update a.vel add_idx p.vel,
          tag := Function.update a.tag add_idx p.tag,
          comm := Function.update a.comm add_idx
                    (Nat.land p.comm_flag (Nat.xor ones32 mask)) })
      a : PArrays) =
    ⟨l.foldl (fun g idx =>
        Function.update g (old_nparticles + idx) (d_in idx).pos) a.pos,
     l.foldl (fun g idx =>
        Function.update g (old_nparticles + idx) (d_in idx).vel) a.vel,
     l.foldl (fun g idx =>
        Function.update g (old_nparticles + idx) (d_in idx).tag) a.tag,
     l.foldl (fun g idx =>
        Function.update g (old_nparticles + idx)
          (Nat.land (d_in idx).comm_flag (Nat.xor ones32 mask))) a.comm⟩ := by
  intro l
  induction l with
  | nil => intro a; rfl
  | cons x t ih =>
      intro a
      simp only [List.foldl_cons]
      rw [ih]

end Hoomd

namespace Hoomd

/-- C9: frame property of the append kernel: for any old local count K
and inbound buffer of length M, add_particles writes only indices
K..K+M−1; every position, velocity, tag and status entry at an index
below K is left unchanged. -/
theorem c9_append_frame (K M : ℕ) (arrs : PArrays)
    (d_in : ℕ → PDataElement) (mask : ℕ) (i : ℕ) (h : i < K) :
    (add_particles K M arrs d_in mask).pos i = arrs.pos i ∧
    (add_particles K M arrs d_in mask).vel i = arrs.vel i ∧
    (add_particles K M arrs d_in mask).tag i = arrs.tag i ∧
    (add_particles K M arrs d_in mask).comm i = arrs.comm i := by
  unfold add_particles
  rw [add_particles_fields]
  have hne : ∀ x ∈ List.range M, K + x ≠ i := by
    intro x _
    omega
  exact ⟨foldl_update_ne _ _ _ _ i hne, foldl_update_ne _ _ _ _ i hne,
    foldl_update_ne _ _ _ _ i hne, foldl_update_ne _ _ _ _ i hne⟩

/-- Witness for C9: a concrete append leaves index 0 unchanged. -/
theorem c9_append_frame_witness :
    (0 : ℕ) < 2 ∧
    (add_particles 2 1 ⟨fun _ => ⟨0, 0, 0, 0⟩, fun _ => ⟨0, 0, 0, 1⟩,
        fun i => i, fun _ => 0⟩ (fun _ => ⟨⟨5, 5, 5, 0⟩, ⟨1, 1, 1, 2⟩, 9, 3⟩)
        1).tag 0 =
      (fun i => i : ℕ → ℕ) 0 := by
  refine ⟨by decide, ?_⟩
  exact (c9_append_frame 2 1 ⟨fun _ => ⟨0, 0, 0, 0⟩, fun _ => ⟨0, 0, 0, 1⟩,
    fun i => i, fun _ => 0⟩ (fun _ => ⟨⟨5, 5, 5, 0⟩, ⟨1, 1, 1, 2⟩, 9, 3⟩)
    1 0 (by decide)).2.2.1

/-- C4: round trip. If particle p = d_scan idx is removed into the
outbound transfer element at slot idx − n_keep, then appending that
exact transfer element (entry j of the inbound buffer) with the same
migration mask reproduces the original position, velocity and tag of p
at the appended slot K+j, and its status word equals the original
status word with the migration bits of the mask cleared. -/
theorem c4_remove_append_round_trip (d_scan : ℕ → ℕ) (n_keep N : ℕ)
    (src alt : PArrays) (out : ℕ → PDataElement) (K M j mask : ℕ)
    (arrs : PArrays) (d_in : ℕ → PDataElement) (idx : ℕ)
    (h1 : n_keep ≤ idx) (h2 : idx < N) (hj : j < M)
    (hbuf : d_in j = (remove_particles d_scan n_keep N src alt out).2
      (idx - n_keep)) :
    (add_particles K M arrs d_in mask).pos (K + j) = src.pos (d_scan idx) ∧
    (add_particles K M arrs d_in mask).vel (K + j) = src.vel (d_scan idx) ∧
    (add_particles K M arrs d_in mask).tag (K + j) = src.tag (d_scan idx) ∧
    (add_particles K M arrs d_in mask).comm (K + j) =
      Nat.land (src.comm (d_scan idx)) (Nat.xor ones32 mask) := by
  have hout := remove_particles_out_slot d_scan n_keep N src alt out idx h1 h2
  rw [hout] at hbuf
  have huniq : ∀ (γ : Type) (w : ℕ → γ), ∀ s ∈ List.range M,
      K + s = K + j → w s = w j := by
    intro γ w s _ hks
    have : s = j := by omega
    rw [this]
  unfold add_particles
  rw [add_particles_fields]
  refine ⟨?_, ?_, ?_, ?_⟩
  · exact (foldl_update_eq (fun i => K + i) (fun i => (d_in i).pos)
      (List.range M) arrs.pos j (List.mem_range.mpr hj)
      (huniq _ _)).trans (by rw [hbuf]; rfl)
  · exact (foldl_update_eq (fun i => K + i) (fun i => (d_in i).vel)
      (List.range M) arrs.vel j (List.mem_range.mpr hj)
      (huniq _ _)).trans (by rw [hbuf]; rfl)
  · exact (foldl_update_eq (fun i => K + i) (fun i => (d_in i).tag)
      (List.range M) arrs.tag j (List.mem_range.mpr hj)
      (huniq _ _)).trans (by rw [hbuf]; rfl)
  · exact (foldl_update_eq (fun i => K + i)
      (fun i => Nat.land (d_in i).comm_flag (Nat.xor ones32 mask))
      (List.range M) arrs.comm j (List.mem_range.mpr hj)
      (huniq _ _)).trans (by rw [hbuf]; rfl)

/-- Witness for C4: a concrete remove and re-append of particle 1 of 2,
with mask 1 and status word 3, reproduces its record with status 2. -/
theorem c4_remove_append_round_trip_witness :
    ((1 : ℕ) ≤ 1 ∧ (1 : ℕ) < 2 ∧ (0 : ℕ) < 1) ∧
    (add_particles 1 1 ⟨fun _ => ⟨0, 0, 0, 0⟩, fun _ => ⟨0, 0, 0, 1⟩,
        fun _ => 0, fun _ => 0⟩
        (fun _ => (remove_particles (fun i => i) 1 2
          ⟨fun i => ⟨(i : ℚ), 2, 3, 0⟩, fun i => ⟨4, 5, 6, 1⟩,
           fun i => 10 + i, fun _ => 3⟩
          ⟨fun _ => ⟨0, 0, 0, 0⟩, fun _ => ⟨0, 0, 0, 1⟩,
           fun _ => 0, fun _ => 0⟩ (fun _ => ⟨⟨0, 0, 0, 0⟩, ⟨0, 0, 0, 1⟩, 0, 0⟩)).2 0)
        1).comm (1 + 0) =
      Nat.land 3 (Nat.xor ones32 1) := by
  refine ⟨⟨by decide, by decide, by decide⟩, ?_⟩
  exact (c4_remove_append_round_trip (fun i => i) 1 2
    ⟨fun i => ⟨(i : ℚ), 2, 3, 0⟩, fun i => ⟨4, 5, 6, 1⟩,
     fun i => 10 + i, fun _ => 3⟩
    ⟨fun _ => ⟨0, 0, 0, 0⟩, fun _ => ⟨0, 0, 0, 1⟩, fun _ => 0, fun _ => 0⟩
    (fun _ => ⟨⟨0, 0, 0, 0⟩, ⟨0, 0, 0, 1⟩, 0, 0⟩) 1 1 0 1
    ⟨fun _ => ⟨0, 0, 0, 0⟩, fun _ => ⟨0, 0, 0, 1⟩, fun _ => 0, fun _ => 0⟩
    (fun _ => (remove_particles (fun i => i) 1 2
      ⟨fun i => ⟨(i : ℚ), 2, 3, 0⟩, fun i => ⟨4, 5, 6, 1⟩,
       fun i => 10 + i, fun _ => 3⟩
      ⟨fun _ => ⟨0, 0, 0, 0⟩, fun _ => ⟨0, 0, 0, 1⟩,
       fun _ => 0, fun _ => 0⟩ (fun _ => ⟨⟨0, 0, 0, 0⟩, ⟨0, 0, 0, 1⟩, 0, 0⟩)).2 0)
    1 (by decide) (by decide) (by decide) rfl).2.2.2

end Hoomd

namespace Hoomd

/-!
## Sparse solve pipeline orchestration

`ForceDistanceConstraintGPU::computeConstraintForces`
(ForceDistanceConstraintGPU.cc): dense-to-sparse conversion, the
dirty/clean branch, the full factorization path with the zero-pivot
check, and the per-step numeric refactorization and solve. The cuSPARSE
and cuSOLVER calls are external; their numeric outcomes (the new
nonzero count returned by cusparseDnnz inside gpu_dense2sparse, and the
singularity index returned by cusolverSpDcsrluZeroPivotHost) enter the
model as oracle values.
-/

/-- The externally visible steps of one `computeConstraintForces` call,
in program order. -/
inductive SolveStep where
  | dense2sparse
  | reorder
  | symbolic
  | factor
  | zeroPivotCheck
  | extract
  | rfSetup
  | rfAnalyze
  | resetValues
  | refactor
  | solve
  | writeback
deriving DecidableEq, Repr

/-- Persistent solver state across calls: the stored nonzero count
(m_nnz_tot), the dirty-notification flag (m_constraints_dirty), and
whether the cusolverRf handle exists (m_cusolver_rf_initialized). -/
structure SolverState where
  nnz : Int
  constraintsDirty : Bool
  rfInitialized : Bool
deriving DecidableEq, Repr

/-- Oracle outcomes of the external library calls in one solve:
the nonzero count of the converted sparse matrix (cusparseDnnz) and the
singularity index reported by the zero-pivot check
(cusolverSpDcsrluZeroPivotHost; negative means no zero pivot). -/
structure SolveOracle where
  newNnz : Int
  singularity : Int
deriving DecidableEq, Repr

/-- gpu_dense2sparse (ForceDistanceConstraintGPU.cu): counts nonzeros,
reports whether the count changed, and stores the new count. -/
def gpu_dense2sparse (nnz newNnz : Int) : Bool × Int :=
  (decide (nnz ≠ newNnz), newNnz)

/-- ForceDistanceConstraintGPU::computeConstraintForces
(ForceDistanceConstraintGPU.cc, control-flow skeleton): returns the
steps executed in order, and either the updated persistent state or the
fatal error message. -/
def computeConstraintForces (s : SolverState) (o : SolveOracle) :
    List SolveStep × Except String SolverState :=
  let conv := gpu_dense2sparse s.nnz o.newNnz
  let sparsityPatternChanged := conv.1 || s.constraintsDirty
  let nnz := conv.2
  -- reset flag (m_constraints_dirty = false) before the branch
  let dirty := false
  if sparsityPatternChanged then
    if 0 ≤ o.singularity then
      ([SolveStep.dense2sparse, SolveStep.reorder, SolveStep.symbolic,
        SolveStep.factor, SolveStep.zeroPivotCheck],
       Except.error "Singular constraint matrix.")
    else
      ([SolveStep.dense2sparse, SolveStep.reorder, SolveStep.symbolic,
        SolveStep.factor, SolveStep.zeroPivotCheck, SolveStep.extract,
        SolveStep.rfSetup, SolveStep.rfAnalyze, SolveStep.resetValues,
        SolveStep.refactor, SolveStep.solve, SolveStep.writeback],
       Except.ok ⟨nnz, dirty, true⟩)
  else
    ([SolveStep.dense2sparse, SolveStep.resetValues, SolveStep.refactor,
      SolveStep.solve, SolveStep.writeback],
     Except.ok ⟨nnz, dirty, s.rfInitialized⟩)

end Hoomd

namespace Hoomd

/-- C5: on the full-factorization (DIRTY) path, the solve raises the
fatal singular-constraint-matrix error if and only if the zero-pivot
check reports a nonnegative singularity index; on that error no solve
step runs, and when no zero pivot is reported the pipeline proceeds to
factor extraction. -/
theorem c5_singular_matrix_error (s : SolverState) (o : SolveOracle)
    (hdirty : s.nnz ≠ o.newNnz ∨ s.constraintsDirty = true) :
    let r := computeConstraintForces s o
    ((∃ msg, r.2 = Except.error msg) ↔ 0 ≤ o.singularity) ∧
    (0 ≤ o.singularity →
      r.2 = Except.error "Singular constraint matrix." ∧
      SolveStep.solve ∉ r.1 ∧ SolveStep.extract ∉ r.1) ∧
    (¬ 0 ≤ o.singularity → SolveStep.extract ∈ r.1) := by
  by_cases hsing : 0 ≤ o.singularity <;>
    rcases hdirty with h | h <;>
    · refine ⟨?_, ?_, ?_⟩ <;>
        simp [computeConstraintForces, gpu_dense2sparse, hsing, h]

/-- Witness for C5 at a concrete state and oracle. -/
theorem c5_singular_matrix_error_witness :
    ((3 : Int) ≠ 4 ∨ (false = true)) ∧
    ((computeConstraintForces ⟨3, false, true⟩ ⟨4, 0⟩).2 =
      Except.error "Singular constraint matrix." ∧
     SolveStep.solve ∉ (computeConstraintForces ⟨3, false, true⟩ ⟨4, 0⟩).1 ∧
     SolveStep.extract ∉ (computeConstraintForces ⟨3, false, true⟩ ⟨4, 0⟩).1) := by
  refine ⟨by decide, ?_⟩
  exact (c5_singular_matrix_error ⟨3, false, true⟩ ⟨4, 0⟩
    (by left; decide)).2.1 (by decide)

/-- C6 counterexample: on a solve where the nonzero count is unchanged
(3 = 3) and the dirty flag is clear, the claim says only the CLEAN fast
path (reset values, numeric refactorization, triangular solve) runs; in
the code the dense-to-sparse conversion also runs on this path (it is
what produces the compared count), so the claim as stated is false. -/
theorem c6_counterexample :
    ((⟨3, false, true⟩ : SolverState).nnz = (⟨3, -1⟩ : SolveOracle).newNnz ∧
     (⟨3, false, true⟩ : SolverState).constraintsDirty = false) ∧
    SolveStep.dense2sparse ∈ (computeConstraintForces ⟨3, false, true⟩ ⟨3, -1⟩).1 ∧
    SolveStep.dense2sparse ∉
      [SolveStep.resetValues, SolveStep.refactor, SolveStep.solve] := by
  decide

/-- C6 (amended): a solve enters the DIRTY path (reordering, symbolic
analysis, full LU factorization) exactly when the nonzero count of the
converted sparse matrix differs from the previous count or the
constraint-dirty flag is set, and completes it (factor extraction,
handle setup, sparsity analysis) when additionally no zero pivot is
found; when neither the count changed nor the flag was set, the solve
runs exactly the dense-to-sparse conversion followed by the CLEAN fast
path (reset values, numeric refactorization, triangular solve) and the
force writeback; every successful solve runs the CLEAN steps and leaves
the dirty flag cleared. -/
theorem c6_dirty_clean_state_machine (s : SolverState) (o : SolveOracle) :
    let r := computeConstraintForces s o
    ((SolveStep.reorder ∈ r.1 ∧ SolveStep.symbolic ∈ r.1 ∧
        SolveStep.factor ∈ r.1) ↔
      (s.nnz ≠ o.newNnz ∨ s.constraintsDirty = true)) ∧
    (¬ (s.nnz ≠ o.newNnz ∨ s.constraintsDirty = true) →
      r.1 = [SolveStep.dense2sparse, SolveStep.resetValues,
             SolveStep.refactor, SolveStep.solve, SolveStep.writeback]) ∧
    (∀ s₁, r.2 = Except.ok s₁ →
      s₁.constraintsDirty = false ∧ SolveStep.resetValues ∈ r.1 ∧
      SolveStep.refactor ∈ r.1 ∧ SolveStep.solve ∈ r.1) ∧
    ((s.nnz ≠ o.newNnz ∨ s.constraintsDirty = true) → ¬ 0 ≤ o.singularity →
      SolveStep.extract ∈ r.1 ∧ SolveStep.rfSetup ∈ r.1 ∧
      SolveStep.rfAnalyze ∈ r.1) := by
  by_cases hsing : 0 ≤ o.singularity <;>
    by_cases h1 : s.nnz = o.newNnz <;>
    by_cases h2 : s.constraintsDirty = true <;>
    · refine ⟨?_, ?_, ?_, ?_⟩ <;>
        simp [computeConstraintForces, gpu_dense2sparse, hsing, h1, h2]

/-- Witness for C6 at a concrete state and oracle (clean-path case). -/
theorem c6_dirty_clean_state_machine_witness :
    (¬ ((3 : Int) ≠ 3 ∨ (false : Bool) = true)) ∧
    (computeConstraintForces ⟨3, false, true⟩ ⟨3, -1⟩).1 =
      [SolveStep.dense2sparse, SolveStep.resetValues, SolveStep.refactor,
       SolveStep.solve, SolveStep.writeback] := by
  refine ⟨by decide, ?_⟩
  exact (c6_dirty_clean_state_machine ⟨3, false, true⟩ ⟨3, -1⟩).2.1 (by decide)

end Hoomd

namespace Hoomd

/-!
## Distance-constraint matrix builder and force writeback
(ForceDistanceConstraintGPU.cu)

gpu_fill_matrix_vector_kernel, gpu_fill_matrix_vector (with its memsets)
and gpu_fill_constraint_forces_kernel. The per-particle constraint
adjacency table (built by ConstraintData outside this source tree) is
derived from the constraint list; the kernels run one thread per local
particle, folded in thread order. The fill state carries, besides the
matrix and vector, a log of every store the kernel performs (index and
value), so that write-once and untouched-cell properties can be stated.
-/

/-- A distance constraint: endpoint particle indices a, b (in the fixed
order of the constraint definition) and target distance d. -/
structure Constraint where
  a : ℕ
  b : ℕ
  d : ℚ
deriving DecidableEq

/-- The default constraint used for out-of-range table reads. -/
def defaultConstraint : Constraint := ⟨0, 0, 0⟩

/-- Constraint n of the list (d_group_typeval and the group table). -/
def conOf (cs : List Constraint) (n : ℕ) : Constraint :=
  cs.getD n defaultConstraint

/-- One entry of the per-particle constraint adjacency table: the other
particle of the constraint (d_gpu_clist idx[0]), the constraint index
(idx[1]), and the position of this particle in the constraint
(d_gpu_cpos: 0 when it is the first/"a" endpoint). -/
structure CEntry where
  other : ℕ
  cid : ℕ
  cpos : ℕ
deriving DecidableEq

/-- Modelled from the spec (data model: the per-particle Constraint
Group Table, kept synchronized with the constraint graph by
ConstraintData, outside this source tree): the adjacency list of
particle p holds one entry per incident constraint, in constraint-index
order, starting the numbering at k. -/
def clistAux (p : ℕ) : List Constraint → ℕ → List CEntry
  | [], _ => []
  | c :: rest, n =>
      (if c.a = p then [⟨c.b, n, 0⟩]
       else if c.b = p then [⟨c.a, n, 1⟩] else []) ++ clistAux p rest (n + 1)

/-- The adjacency list of particle p (d_gpu_clist row of p). -/
def clist (cs : List Constraint) (p : ℕ) : List CEntry := clistAux p cs 0

/-- Inputs of gpu_fill_matrix_vector: the constraint list, the local
particle count, the particle arrays, the timestep and the box. -/
structure FillParams where
  cs : List Constraint
  nptl_local : ℕ
  pos : ℕ → Scalar4
  vel : ℕ → Scalar4
  netforce : ℕ → Scalar4
  deltaT : ℚ
  box : Box

/-- One logged store into the dense constraint matrix: row n, column m
(written at flat column-major index m·N_c + n) and the stored value. -/
structure MatWrite where
  n : ℕ
  m : ℕ
  value : ℚ
deriving DecidableEq

/-- One logged store into the right-hand-side vector: the constraint
index, the thread that stored it, and the stored value. -/
structure VecWrite where
  cid : ℕ
  writer : ℕ
  value : ℚ
deriving DecidableEq

/-- The evolving state of the fill kernel: the dense matrix (flat
column-major), the vector, and the logs of all stores performed. -/
structure FillState where
  matrix : ℕ → ℚ
  vec : ℕ → ℚ
  matLog : List MatWrite
  vecLog : List VecWrite

/-- The right-hand-side value the kernel stores for constraint n:
(qn·qn − d²)/Δt/Δt + 2·qn·(F_a/m_a − F_b/m_b). -/
def vecValue (P : FillParams) (na nb : ℕ) (qn : Vec3) (ma mb d : ℚ) : ℚ :=
  (dot qn qn - d * d) / P.deltaT / P.deltaT
    + 2 * dot qn ((1 / ma) • s4v (P.netforce na)
        - (1 / mb) • s4v (P.netforce nb))

/-- Innermost loop body of gpu_fill_matrix_vector_kernel (loop over the
constraints of the partner particle q): compute the matrix element from
the four endpoint-role cases and store it (assignment) at column-major
index m·N_c + n. -/
def innerStep (P : FillParams) (na nb : ℕ) (qn : Vec3) (ma mb : ℚ) (q : ℕ)
    (n : ℕ) (st : FillState) (e2 : CEntry) : FillState :=
  let m := e2.cid
  let roles : ℕ × ℕ := if e2.cpos = 0 then (q, e2.other) else (e2.other, q)
  let rm := P.box.minImage (s4v (P.pos roles.1) - s4v (P.pos roles.2))
  let mat_element : ℚ :=
    (if na = roles.1 then 4 * dot qn rm / ma else 0)
      - (if na = roles.2 then 4 * dot qn rm / ma else 0)
      - (if nb = roles.1 then 4 * dot qn rm / mb else 0)
      + (if nb = roles.2 then 4 * dot qn rm / mb else 0)
  { st with
      matrix := Function.update st.matrix (m * P.cs.length + n) mat_element,
      matLog := st.matLog ++ [⟨n, m, mat_element⟩] }

/-- Outer loop body of gpu_fill_matrix_vector_kernel (loop over the
constraints of thread idx): resolve the a/b endpoint roles from cpos,
build rn, qn and the masses, run the inner loop, and store the vector
component when this thread is the primary owner (cpos = 0) or one of
the endpoints lies outside the local particle range. -/
def middleStep (P : FillParams) (idx : ℕ) (st : FillState) (e : CEntry) :
    FillState :=
  let n := e.cid
  let d := (conOf P.cs n).d
  let roles : ℕ × ℕ := if e.cpos = 0 then (idx, e.other) else (e.other, idx)
  let na := roles.1
  let nb := roles.2
  let rn := P.box.minImage (s4v (P.pos na) - s4v (P.pos nb))
  let ma := (P.vel na).w
  let mb := (P.vel nb).w
  let rndot := s4v (P.vel na) - s4v (P.vel nb)
  let qn := rn + P.deltaT • rndot
  let st1 := (clist P.cs e.other).foldl (innerStep P na nb qn ma mb e.other n) st
  if e.cpos = 0 ∨ P.nptl_local ≤ na ∨ P.nptl_local ≤ nb then
    { st1 with
        vec := Function.update st1.vec n (vecValue P na nb qn ma mb d),
        vecLog := st1.vecLog ++ [⟨n, idx, vecValue P na nb qn ma mb d⟩] }
  else st1

/-- One thread of gpu_fill_matrix_vector_kernel. -/
def fillThread (P : FillParams) (st : FillState) (idx : ℕ) : FillState :=
  (clist P.cs idx).foldl (middleStep P idx) st

/-- gpu_fill_matrix_vector_kernel over all local-particle threads. -/
def fill_matrix_vector_kernel (P : FillParams) (st : FillState) : FillState :=
  (List.range P.nptl_local).foldl (fillThread P) st

/-- gpu_fill_matrix_vector: memset the vector and the matrix to zero,
then run the kernel. -/
def gpu_fill_matrix_vector (P : FillParams) : FillState :=
  fill_matrix_vector_kernel P ⟨fun _ => 0, fun _ => 0, [], []⟩

/-- Modelled from the claim wording (C2): the same inner loop but with
the matrix cell accumulated additively (the store adds the contribution
to the current cell content instead of overwriting it). -/
def innerStepSummed (P : FillParams) (na nb : ℕ) (qn : Vec3) (ma mb : ℚ)
    (q : ℕ) (n : ℕ) (st : FillState) (e2 : CEntry) : FillState :=
  let m := e2.cid
  let roles : ℕ × ℕ := if e2.cpos = 0 then (q, e2.other) else (e2.other, q)
  let rm := P.box.minImage (s4v (P.pos roles.1) - s4v (P.pos roles.2))
  let mat_element : ℚ :=
    (if na = roles.1 then 4 * dot qn rm / ma else 0)
      - (if na = roles.2 then 4 * dot qn rm / ma else 0)
      - (if nb = roles.1 then 4 * dot qn rm / mb else 0)
      + (if nb = roles.2 then 4 * dot qn rm / mb else 0)
  { st with
      matrix := Function.update st.matrix (m * P.cs.length + n)
        (st.matrix (m * P.cs.length + n) + mat_element),
      matLog := st.matLog ++ [⟨n, m, mat_element⟩] }

/-- Modelled from the claim wording (C2): middle loop over the summed
inner step. -/
def middleStepSummed (P : FillParams) (idx : ℕ) (st : FillState)
    (e : CEntry) : FillState :=
  let n := e.cid
  let d := (conOf P.cs n).d
  let roles : ℕ × ℕ := if e.cpos = 0 then (idx, e.other) else (e.other, idx)
  let na := roles.1
  let nb := roles.2
  let rn := P.box.minImage (s4v (P.pos na) - s4v (P.pos nb))
  let ma := (P.vel na).w
  let mb := (P.vel nb).w
  let rndot := s4v (P.vel na) - s4v (P.vel nb)
  let qn := rn + P.deltaT • rndot
  let st1 := (clist P.cs e.other).foldl
    (innerStepSummed P na nb qn ma mb e.other n) st
  if e.cpos = 0 ∨ P.nptl_local ≤ na ∨ P.nptl_local ≤ nb then
    { st1 with
        vec := Function.update st1.vec n (vecValue P na nb qn ma mb d),
        vecLog := st1.vecLog ++ [⟨n, idx, vecValue P na nb qn ma mb d⟩] }
  else st1

/-- Modelled from the claim wording (C2): the fill pass with additive
matrix accumulation, starting from zeroed storage. -/
def gpu_fill_matrix_vector_summed (P : FillParams) : FillState :=
  (List.range P.nptl_local).foldl
    (fun st idx => (clist P.cs idx).foldl (middleStepSummed P idx) st)
    ⟨fun _ => 0, fun _ => 0, [], []⟩

/-- The minimum-image separation of constraint n, r_n = pos(a) − pos(b). -/
def rnOf (P : FillParams) (n : ℕ) : Vec3 :=
  P.box.minImage (s4v (P.pos (conOf P.cs n).a) - s4v (P.pos (conOf P.cs n).b))

/-- The predicted separation of constraint n, q_n = r_n + Δt·(v_a − v_b). -/
def qnOf (P : FillParams) (n : ℕ) : Vec3 :=
  rnOf P n + P.deltaT •
    (s4v (P.vel (conOf P.cs n).a) - s4v (P.vel (conOf P.cs n).b))

/-- Mass of the a endpoint of constraint n. -/
def maOf (P : FillParams) (n : ℕ) : ℚ := (P.vel (conOf P.cs n).a).w

/-- Mass of the b endpoint of constraint n. -/
def mbOf (P : FillParams) (n : ℕ) : ℚ := (P.vel (conOf P.cs n).b).w

/-- The matrix element the inner loop computes for column constraint m,
with the endpoint roles of the row constraint already resolved to
(na, nb). -/
def matElemOf (P : FillParams) (na nb : ℕ) (qn : Vec3) (ma mb : ℚ)
    (m : ℕ) : ℚ :=
  (if na = (conOf P.cs m).a then 4 * dot qn (rnOf P m) / ma else 0)
    - (if na = (conOf P.cs m).b then 4 * dot qn (rnOf P m) / ma else 0)
    - (if nb = (conOf P.cs m).a then 4 * dot qn (rnOf P m) / mb else 0)
    + (if nb = (conOf P.cs m).b then 4 * dot qn (rnOf P m) / mb else 0)

/-- The value every store into matrix cell (n, m) carries: the sum of
the four endpoint-role contributions ±4·(q_n·r_m)/mass. It depends only
on the pair (n, m), not on the writing thread. -/
def matValue (P : FillParams) (n m : ℕ) : ℚ :=
  matElemOf P (conOf P.cs n).a (conOf P.cs n).b (qnOf P n) (maOf P n)
    (mbOf P n) m

/-- The right-hand-side value of constraint n in endpoint order (a, b). -/
def refVecValue (P : FillParams) (n : ℕ) : ℚ :=
  vecValue P (conOf P.cs n).a (conOf P.cs n).b (qnOf P n) (maOf P n)
    (mbOf P n) (conOf P.cs n).d

/-- Constraint m has q as one of its endpoints. -/
def sharesWith (cs : List Constraint) (m q : ℕ) : Prop :=
  (conOf cs m).a = q ∨ (conOf cs m).b = q

instance (cs : List Constraint) (m q : ℕ) : Decidable (sharesWith cs m q) := by
  unfold sharesWith
  exact inferInstance

/-- Cell (n, m) is stored by some thread of the fill kernel: some local
endpoint p of constraint n exists whose partner in n is an endpoint of
constraint m. -/
def touched (P : FillParams) (n m : ℕ) : Prop :=
  n < P.cs.length ∧ m < P.cs.length ∧
  (((conOf P.cs n).a < P.nptl_local ∧ sharesWith P.cs m (conOf P.cs n).b) ∨
   ((conOf P.cs n).b < P.nptl_local ∧ (conOf P.cs n).a ≠ (conOf P.cs n).b ∧
     sharesWith P.cs m (conOf P.cs n).a))

instance (P : FillParams) (n m : ℕ) : Decidable (touched P n m) := by
  unfold touched
  exact inferInstance

/-- Constraints n and m share an endpoint. -/
def sharesEndpoint (cs : List Constraint) (n m : ℕ) : Prop :=
  (conOf cs n).a = (conOf cs m).a ∨ (conOf cs n).a = (conOf cs m).b ∨
  (conOf cs n).b = (conOf cs m).a ∨ (conOf cs n).b = (conOf cs m).b

end Hoomd

namespace Hoomd

/-! ### Characterization of the derived constraint adjacency table. -/

theorem clistAux_mem_char (p : ℕ) :
    ∀ (cs : List Constraint) (k : ℕ) (e : CEntry), e ∈ clistAux p cs k →
    ∃ j, j < cs.length ∧ e.cid = k + j ∧
      (((cs.getD j defaultConstraint).a = p ∧
        e.other = (cs.getD j defaultConstraint).b ∧ e.cpos = 0) ∨
       ((cs.getD j defaultConstraint).a ≠ p ∧
        (cs.getD j defaultConstraint).b = p ∧
        e.other = (cs.getD j defaultConstraint).a ∧ e.cpos = 1)) := by
  intro cs
  induction cs with
  | nil => intro k e he; simp [clistAux] at he
  | cons c rest ih =>
      intro k e he
      simp only [clistAux, List.mem_append] at he
      rcases he with he | he
      · by_cases h1 : c.a = p
        · rw [if_pos h1] at he
          simp only [List.mem_singleton] at he
          subst he
          exact ⟨0, by simp, by simp, Or.inl ⟨by simpa using h1, by simp, rfl⟩⟩
        · rw [if_neg h1] at he
          by_cases h2 : c.b = p
          · rw [if_pos h2] at he
            simp only [List.mem_singleton] at he
            subst he
            exact ⟨0, by simp, by simp,
              Or.inr ⟨by simpa using h1, by simpa using h2, by simp, rfl⟩⟩
          · rw [if_neg h2] at he
            simp at he
      · obtain ⟨j, hj, hcid, hch⟩ := ih (k + 1) e he
        refine ⟨j + 1, by simpa using hj, by omega, ?_⟩
        simpa using hch

theorem clist_mem_char (cs : List Constraint) (p : ℕ) (e : CEntry)
    (he : e ∈ clist cs p) :
    e.cid < cs.length ∧
    (((conOf cs e.cid).a = p ∧ e.other = (conOf cs e.cid).b ∧ e.cpos = 0) ∨
     ((conOf cs e.cid).a ≠ p ∧ (conOf cs e.cid).b = p ∧
      e.other = (conOf cs e.cid).a ∧ e.cpos = 1)) := by
  obtain ⟨j, hj, hcid, hch⟩ := clistAux_mem_char p cs 0 e he
  have hej : e.cid = j := by omega
  rw [conOf, hej]
  exact ⟨hej ▸ (by omega), hch⟩

/-- The endpoint roles resolved by the kernels from cpos coincide with
the (a, b) endpoints of the constraint. -/
theorem clist_roles (cs : List Constraint) (p : ℕ) (e : CEntry)
    (he : e ∈ clist cs p) :
    (if e.cpos = 0 then (p, e.other) else (e.other, p)) =
      ((conOf cs e.cid).a, (conOf cs e.cid).b) := by
  obtain ⟨-, hch⟩ := clist_mem_char cs p e he
  rcases hch with ⟨h1, h2, h3⟩ | ⟨h1, h2, h3, h4⟩
  · rw [if_pos h3, h1, h2]
  · rw [h4]
    simp only [if_neg (by omega : ¬(1 : ℕ) = 0)]
    rw [h2, h3]

theorem clistAux_mem_a (p : ℕ) :
    ∀ (cs : List Constraint) (k j : ℕ), j < cs.length →
    (cs.getD j defaultConstraint).a = p →
    (⟨(cs.getD j defaultConstraint).b, k + j, 0⟩ : CEntry) ∈ clistAux p cs k := by
  intro cs
  induction cs with
  | nil => intro k j hj; simp at hj
  | cons c rest ih =>
      intro k j hj ha
      cases j with
      | zero =>
          simp only [List.getD_cons_zero] at ha ⊢
          simp only [clistAux, List.mem_append]
          left
          rw [if_pos ha]
          simp
      | succ j =>
          simp only [List.getD_cons_succ] at ha ⊢
          simp only [clistAux, List.mem_append]
          right
          have := ih (k + 1) j (by simpa using hj) ha
          rw [show k + (j + 1) = (k + 1) + j by omega]
          exact this

theorem clistAux_mem_b (p : ℕ) :
    ∀ (cs : List Constraint) (k j : ℕ), j < cs.length →
    (cs.getD j defaultConstraint).a ≠ p →
    (cs.getD j defaultConstraint).b = p →
    (⟨(cs.getD j defaultConstraint).a, k + j, 1⟩ : CEntry) ∈ clistAux p cs k := by
  intro cs
  induction cs with
  | nil => intro k j hj; simp at hj
  | cons c rest ih =>
      intro k j hj ha hb
      cases j with
      | zero =>
          simp only [List.getD_cons_zero] at ha hb ⊢
          simp only [clistAux, List.mem_append]
          left
          rw [if_neg ha, if_pos hb]
          simp
      | succ j =>
          simp only [List.getD_cons_succ] at ha hb ⊢
          simp only [clistAux, List.mem_append]
          right
          have := ih (k + 1) j (by simpa using hj) ha hb
          rw [show k + (j + 1) = (k + 1) + j by omega]
          exact this

theorem clistAux_cid_lb (p : ℕ) (cs : List Constraint) (k : ℕ) (e : CEntry)
    (he : e ∈ clistAux p cs k) : k ≤ e.cid := by
  obtain ⟨j, -, hcid, -⟩ := clistAux_mem_char p cs k e he
  omega

theorem clistAux_filter_cid (p : ℕ) :
    ∀ (cs : List Constraint) (k j : ℕ), j < cs.length →
    (clistAux p cs k).filter (fun e => e.cid == k + j) =
      (if (cs.getD j defaultConstraint).a = p
        then [⟨(cs.getD j defaultConstraint).b, k + j, 0⟩]
       else if (cs.getD j defaultConstraint).b = p
        then [⟨(cs.getD j defaultConstraint).a, k + j, 1⟩]
       else []) := by
  intro cs
  induction cs with
  | nil => intro k j hj; simp at hj
  | cons c rest ih =>
      intro k j hj
      simp only [clistAux, List.filter_append]
      cases j with
      | zero =>
          have htail : (clistAux p rest (k + 1)).filter
              (fun e => e.cid == k + 0) = [] := by
            rw [List.filter_eq_nil_iff]
            intro e he
            have := clistAux_cid_lb p rest (k + 1) e he
            simp only [beq_iff_eq]
            omega
          rw [htail, List.append_nil]
          simp only [List.getD_cons_zero]
          by_cases h1 : c.a = p
          · rw [if_pos h1, if_pos h1]
            simp
          · rw [if_neg h1, if_neg h1]
            by_cases h2 : c.b = p
            · rw [if_pos h2, if_pos h2]
              simp
            · rw [if_neg h2, if_neg h2]
              simp
      | succ j =>
          have hhead : ((if c.a = p then [(⟨c.b, k, 0⟩ : CEntry)]
              else if c.b = p then [⟨c.a, k, 1⟩] else []).filter
                (fun e => e.cid == k + (j + 1))) = [] := by
            rw [List.filter_eq_nil_iff]
            intro e he
            by_cases h1 : c.a = p
            · rw [if_pos h1] at he
              simp only [List.mem_singleton] at he
              subst he
              simp only [beq_iff_eq]
              omega
            · rw [if_neg h1] at he
              by_cases h2 : c.b = p
              · rw [if_pos h2] at he
                simp only [List.mem_singleton] at he
                subst he
                simp only [beq_iff_eq]
                omega
              · rw [if_neg h2] at he
                simp at he
          rw [hhead, List.nil_append]
          have := ih (k + 1) j (by simpa using hj)
          rw [show k + (j + 1) = (k + 1) + j by omega]
          simpa using this

end Hoomd

namespace Hoomd

/-! ### Rewriting the kernel steps through the adjacency
characterization: every store is expressed in terms of the endpoints of
the stored constraint. -/

/-- Generic invariant-preservation along a left fold. -/
theorem foldl_rec {σ α : Type} (f : σ → α → σ) (C : σ → Prop) :
    ∀ (l : List α) (s : σ), C s → (∀ s a, a ∈ l → C s → C (f s a)) →
    C (l.foldl f s) := by
  intro l
  induction l with
  | nil => intro s h _; exact h
  | cons a t ih =>
      intro s h hstep
      exact ih _ (hstep s a (List.mem_cons_self a t) h)
        (fun s x hx => hstep s x (List.mem_cons_of_mem a hx))

theorem innerStep_eq (P : FillParams) (na nb : ℕ) (qn : Vec3) (ma mb : ℚ)
    (q n : ℕ) (st : FillState) (e2 : CEntry) (he2 : e2 ∈ clist P.cs q) :
    innerStep P na nb qn ma mb q n st e2 =
      { st with
          matrix := Function.update st.matrix (e2.cid * P.cs.length + n)
            (matElemOf P na nb qn ma mb e2.cid),
          matLog := st.matLog ++ [⟨n, e2.cid, matElemOf P na nb qn ma mb e2.cid⟩] } := by
  have hroles := clist_roles P.cs q e2 he2
  simp only [innerStep]
  rw [hroles]
  rfl

theorem middleStep_eq (P : FillParams) (idx : ℕ) (e : CEntry)
    (he : e ∈ clist P.cs idx) (st : FillState) :
    middleStep P idx st e =
      (let n := e.cid
       let st1 := (clist P.cs e.other).foldl
         (innerStep P (conOf P.cs n).a (conOf P.cs n).b (qnOf P n)
           (maOf P n) (mbOf P n) e.other n) st
       if e.cpos = 0 ∨ P.nptl_local ≤ (conOf P.cs n).a ∨
          P.nptl_local ≤ (conOf P.cs n).b then
         { st1 with
             vec := Function.update st1.vec n (refVecValue P n),
             vecLog := st1.vecLog ++ [⟨n, idx, refVecValue P n⟩] }
       else st1) := by
  have hroles := clist_roles P.cs idx e he
  simp only [middleStep]
  rw [hroles]
  rfl

/-- The inner step leaves the vector and its log untouched. -/
theorem innerStep_vec (P : FillParams) (na nb : ℕ) (qn : Vec3) (ma mb : ℚ)
    (q n : ℕ) (st : FillState) (e2 : CEntry) :
    (innerStep P na nb qn ma mb q n st e2).vec = st.vec ∧
    (innerStep P na nb qn ma mb q n st e2).vecLog = st.vecLog :=
  ⟨rfl, rfl⟩

/-- The inner fold leaves the vector and its log untouched. -/
theorem innerFold_vec (P : FillParams) (na nb : ℕ) (qn : Vec3) (ma mb : ℚ)
    (q n : ℕ) :
    ∀ (l : List CEntry) (st : FillState),
    ((l.foldl (innerStep P na nb qn ma mb q n) st).vec = st.vec ∧
     (l.foldl (innerStep P na nb qn ma mb q n) st).vecLog = st.vecLog) := by
  intro l
  induction l with
  | nil => intro st; exact ⟨rfl, rfl⟩
  | cons e t ih =>
      intro st
      simp only [List.foldl_cons]
      exact ⟨(ih _).1.trans rfl, (ih _).2.trans rfl⟩

/-- The vector-store branch leaves the matrix and its log untouched, so
the middle step changes the matrix exactly as its inner fold does. -/
theorem middleStep_mat (P : FillParams) (idx : ℕ) (e : CEntry)
    (he : e ∈ clist P.cs idx) (st : FillState) :
    (middleStep P idx st e).matrix =
      ((clist P.cs e.other).foldl
        (innerStep P (conOf P.cs e.cid).a (conOf P.cs e.cid).b
          (qnOf P e.cid) (maOf P e.cid) (mbOf P e.cid) e.other e.cid) st).matrix ∧
    (middleStep P idx st e).matLog =
      ((clist P.cs e.other).foldl
        (innerStep P (conOf P.cs e.cid).a (conOf P.cs e.cid).b
          (qnOf P e.cid) (maOf P e.cid) (mbOf P e.cid) e.other e.cid) st).matLog := by
  rw [middleStep_eq P idx e he]
  by_cases hc : e.cpos = 0 ∨ P.nptl_local ≤ (conOf P.cs e.cid).a ∨
      P.nptl_local ≤ (conOf P.cs e.cid).b
  · simp only [if_pos hc]
    exact ⟨trivial, trivial⟩
  · simp only [if_neg hc]
    exact ⟨trivial, trivial⟩

/-- The middle step appends to the vector log exactly when the store
condition holds: the thread is the primary owner (cpos = 0) or one of
the endpoints is outside the local range. -/
theorem middleStep_vecLog (P : FillParams) (idx : ℕ) (e : CEntry)
    (he : e ∈ clist P.cs idx) (st : FillState) :
    (middleStep P idx st e).vecLog =
      if e.cpos = 0 ∨ P.nptl_local ≤ (conOf P.cs e.cid).a ∨
         P.nptl_local ≤ (conOf P.cs e.cid).b
      then st.vecLog ++ [⟨e.cid, idx, refVecValue P e.cid⟩]
      else st.vecLog := by
  rw [middleStep_eq P idx e he]
  by_cases hc : e.cpos = 0 ∨ P.nptl_local ≤ (conOf P.cs e.cid).a ∨
      P.nptl_local ≤ (conOf P.cs e.cid).b
  · simp only [if_pos hc]
    exact congrArg (· ++ _) (innerFold_vec _ _ _ _ _ _ _ _ _ _).2
  · simp only [if_neg hc]
    exact (innerFold_vec _ _ _ _ _ _ _ _ _ _).2

/-- The middle step updates the vector at e.cid when the store condition
holds and leaves it untouched otherwise. -/
theorem middleStep_vec (P : FillParams) (idx : ℕ) (e : CEntry)
    (he : e ∈ clist P.cs idx) (st : FillState) :
    (middleStep P idx st e).vec =
      if e.cpos = 0 ∨ P.nptl_local ≤ (conOf P.cs e.cid).a ∨
         P.nptl_local ≤ (conOf P.cs e.cid).b
      then Function.update st.vec e.cid (refVecValue P e.cid)
      else st.vec := by
  rw [middleStep_eq P idx e he]
  by_cases hc : e.cpos = 0 ∨ P.nptl_local ≤ (conOf P.cs e.cid).a ∨
      P.nptl_local ≤ (conOf P.cs e.cid).b
  · simp only [if_pos hc]
    exact congrArg (fun g => Function.update g e.cid (refVecValue P e.cid))
      (innerFold_vec _ _ _ _ _ _ _ _ _ _).1
  · simp only [if_neg hc]
    exact (innerFold_vec _ _ _ _ _ _ _ _ _ _).1

end Hoomd

namespace Hoomd

/-! ### Replaying the store logs: the final matrix and vector are the
zero-initialized storage with the logged stores applied in order. -/

/-- Flat column-major index of a logged matrix store. -/
def matKey (nc : ℕ) (w : MatWrite) : ℕ := w.m * nc + w.n

/-- Replay a matrix store log over a storage function. -/
def applyMat (nc : ℕ) (log : List MatWrite) (g : ℕ → ℚ) : ℕ → ℚ :=
  log.foldl (fun g w => Function.update g (matKey nc w) w.value) g

/-- Replay a vector store log over a storage function. -/
def applyVec (log : List VecWrite) (g : ℕ → ℚ) : ℕ → ℚ :=
  log.foldl (fun g w => Function.update g w.cid w.value) g

theorem applyMat_concat (nc : ℕ) (log : List MatWrite) (w : MatWrite)
    (g : ℕ → ℚ) :
    applyMat nc (log ++ [w]) g =
      Function.update (applyMat nc log g) (matKey nc w) w.value := by
  unfold applyMat
  rw [List.foldl_append]
  rfl

theorem applyVec_concat (log : List VecWrite) (w : VecWrite) (g : ℕ → ℚ) :
    applyVec (log ++ [w]) g =
      Function.update (applyVec log g) w.cid w.value := by
  unfold applyVec
  rw [List.foldl_append]
  rfl

theorem applyMat_none (nc : ℕ) (k : ℕ) :
    ∀ (log : List MatWrite) (g : ℕ → ℚ),
    (∀ w ∈ log, matKey nc w ≠ k) → applyMat nc log g k = g k := by
  intro log
  induction log with
  | nil => intro g _; rfl
  | cons w t ih =>
      intro g h
      unfold applyMat
      simp only [List.foldl_cons]
      rw [show (List.foldl (fun g w => Function.update g (matKey nc w) w.value)
        (Function.update g (matKey nc w) w.value) t) =
        applyMat nc t (Function.update g (matKey nc w) w.value) from rfl]
      rw [ih _ fun u hu => h u (List.mem_cons_of_mem w hu)]
      exact Function.update_noteq (h w (List.mem_cons_self w t)).symm _ _

theorem applyVec_none (k : ℕ) :
    ∀ (log : List VecWrite) (g : ℕ → ℚ),
    (∀ w ∈ log, w.cid ≠ k) → applyVec log g k = g k := by
  intro log
  induction log with
  | nil => intro g _; rfl
  | cons w t ih =>
      intro g h
      unfold applyVec
      simp only [List.foldl_cons]
      rw [show (List.foldl (fun g w => Function.update g w.cid w.value)
        (Function.update g w.cid w.value) t) =
        applyVec t (Function.update g w.cid w.value) from rfl]
      rw [ih _ fun u hu => h u (List.mem_cons_of_mem w hu)]
      exact Function.update_noteq (h w (List.mem_cons_self w t)).symm _ _

theorem applyMat_last (nc : ℕ) (k : ℕ) (v : ℚ) :
    ∀ (log : List MatWrite) (g : ℕ → ℚ),
    (∀ w ∈ log, matKey nc w = k → w.value = v) →
    (∃ w ∈ log, matKey nc w = k) →
    applyMat nc log g k = v := by
  intro log
  induction log using List.reverseRecOn with
  | nil => intro g _ hex; simp at hex
  | append_singleton l w ih =>
      intro g hall hex
      rw [applyMat_concat]
      by_cases hk : matKey nc w = k
      · rw [← hk, Function.update_same]
        exact hall w (List.mem_append_right l (List.mem_singleton_self w)) hk
      · rw [Function.update_noteq (Ne.symm hk)]
        refine ih g (fun u hu hku => hall u (List.mem_append_left _ hu) hku) ?_
        obtain ⟨u, hu, hku⟩ := hex
        rcases List.mem_append.mp hu with h | h
        · exact ⟨u, h, hku⟩
        · rw [List.mem_singleton] at h
          subst h
          exact absurd hku hk

theorem applyVec_last (k : ℕ) (v : ℚ) :
    ∀ (log : List VecWrite) (g : ℕ → ℚ),
    (∀ w ∈ log, w.cid = k → w.value = v) →
    (∃ w ∈ log, w.cid = k) →
    applyVec log g k = v := by
  intro log
  induction log using List.reverseRecOn with
  | nil => intro g _ hex; simp at hex
  | append_singleton l w ih =>
      intro g hall hex
      rw [applyVec_concat]
      by_cases hk : w.cid = k
      · rw [← hk, Function.update_same]
        exact hall w (List.mem_append_right l (List.mem_singleton_self w)) hk
      · rw [Function.update_noteq (Ne.symm hk)]
        refine ih g (fun u hu hku => hall u (List.mem_append_left _ hu) hku) ?_
        obtain ⟨u, hu, hku⟩ := hex
        rcases List.mem_append.mp hu with h | h
        · exact ⟨u, h, hku⟩
        · rw [List.mem_singleton] at h
          subst h
          exact absurd hku hk

/-- The fill state is consistent with its logs: storage equals the
zero-initialized storage with the logs replayed. -/
def FillInv (nc : ℕ) (st : FillState) : Prop :=
  st.matrix = applyMat nc st.matLog (fun _ => 0) ∧
  st.vec = applyVec st.vecLog (fun _ => 0)

theorem innerStep_inv (P : FillParams) (na nb : ℕ) (qn : Vec3) (ma mb : ℚ)
    (q n : ℕ) (st : FillState) (e2 : CEntry) (he2 : e2 ∈ clist P.cs q)
    (h : FillInv P.cs.length st) :
    FillInv P.cs.length (innerStep P na nb qn ma mb q n st e2) := by
  rw [innerStep_eq P na nb qn ma mb q n st e2 he2]
  refine ⟨?_, h.2⟩
  rw [applyMat_concat, ← h.1]
  rfl

theorem middleStep_inv (P : FillParams) (idx : ℕ) (e : CEntry)
    (he : e ∈ clist P.cs idx) (st : FillState)
    (h : FillInv P.cs.length st) :
    FillInv P.cs.length (middleStep P idx st e) := by
  rw [middleStep_eq P idx e he]
  have h1 : FillInv P.cs.length ((clist P.cs e.other).foldl
      (innerStep P (conOf P.cs e.cid).a (conOf P.cs e.cid).b
        (qnOf P e.cid) (maOf P e.cid) (mbOf P e.cid) e.other e.cid) st) :=
    foldl_rec _ (FillInv P.cs.length) _ st h
      (fun s e2 he2 hs => innerStep_inv P _ _ _ _ _ _ _ s e2 he2 hs)
  by_cases hc : e.cpos = 0 ∨ P.nptl_local ≤ (conOf P.cs e.cid).a ∨
      P.nptl_local ≤ (conOf P.cs e.cid).b
  · simp only [if_pos hc]
    refine ⟨h1.1, ?_⟩
    rw [applyVec_concat, ← h1.2]
  · simp only [if_neg hc]
    exact h1

theorem fillThread_inv (P : FillParams) (idx : ℕ) (st : FillState)
    (h : FillInv P.cs.length st) :
    FillInv P.cs.length (fillThread P st idx) :=
  foldl_rec _ (FillInv P.cs.length) _ st h
    (fun s e he hs => middleStep_inv P idx e he s hs)

/-- The final fill state is consistent with its logs. -/
theorem gpu_fill_inv (P : FillParams) :
    FillInv P.cs.length (gpu_fill_matrix_vector P) :=
  foldl_rec _ (FillInv P.cs.length) _ _ ⟨rfl, rfl⟩
    (fun s idx _ hs => fillThread_inv P idx s hs)

end Hoomd

namespace Hoomd

/-! ### Soundness of the store logs: every matrix store targets a
touched cell and carries its four-case value; every vector store is by
the primary owner or a boundary endpoint and carries the formula value. -/

/-- What every logged matrix store satisfies. -/
def MatWriteOK (P : FillParams) (w : MatWrite) : Prop :=
  w.n < P.cs.length ∧ w.m < P.cs.length ∧ touched P w.n w.m ∧
  w.value = matValue P w.n w.m

/-- What every logged vector store satisfies: the store for constraint
n is performed either by its a endpoint (the primary owner, cpos = 0)
or by its local b endpoint when the a endpoint lies outside the local
range, and carries the right-hand-side formula value. -/
def VecWriteOK (P : FillParams) (w : VecWrite) : Prop :=
  w.cid < P.cs.length ∧ w.value = refVecValue P w.cid ∧
  ((w.writer = (conOf P.cs w.cid).a ∧ w.writer < P.nptl_local) ∨
   (w.writer = (conOf P.cs w.cid).b ∧ w.writer < P.nptl_local ∧
     (conOf P.cs w.cid).a ≠ w.writer ∧
     P.nptl_local ≤ (conOf P.cs w.cid).a))

theorem innerStep_matLog_sound (P : FillParams) (n q : ℕ) (st : FillState)
    (e2 : CEntry) (he2 : e2 ∈ clist P.cs q) (hn : n < P.cs.length)
    (hT : ∀ m, m < P.cs.length → sharesWith P.cs m q → touched P n m)
    (hs : ∀ w ∈ st.matLog, MatWriteOK P w) :
    ∀ w ∈ (innerStep P (conOf P.cs n).a (conOf P.cs n).b (qnOf P n)
        (maOf P n) (mbOf P n) q n st e2).matLog, MatWriteOK P w := by
  rw [innerStep_eq P _ _ _ _ _ q n st e2 he2]
  intro w hw
  rcases List.mem_append.mp hw with h | h
  · exact hs w h
  · rw [List.mem_singleton] at h
    subst h
    obtain ⟨hm, hch⟩ := clist_mem_char P.cs q e2 he2
    refine ⟨hn, hm, hT _ hm ?_, rfl⟩
    rcases hch with ⟨h1, -, -⟩ | ⟨-, h2, -, -⟩
    · exact Or.inl h1
    · exact Or.inr h2

theorem middleStep_log_sound (P : FillParams) (idx : ℕ)
    (hidx : idx < P.nptl_local) (e : CEntry) (he : e ∈ clist P.cs idx)
    (st : FillState)
    (hmat : ∀ w ∈ st.matLog, MatWriteOK P w)
    (hvec : ∀ w ∈ st.vecLog, VecWriteOK P w) :
    (∀ w ∈ (middleStep P idx st e).matLog, MatWriteOK P w) ∧
    (∀ w ∈ (middleStep P idx st e).vecLog, VecWriteOK P w) := by
  obtain ⟨hn, hch⟩ := clist_mem_char P.cs idx e he
  have hT : ∀ m, m < P.cs.length → sharesWith P.cs m e.other →
      touched P e.cid m := by
    intro m hm hsw
    rcases hch with ⟨h1, h2, -⟩ | ⟨h1, h2, h3, -⟩
    · exact ⟨hn, hm, Or.inl ⟨h1 ▸ hidx, h2 ▸ hsw⟩⟩
    · refine ⟨hn, hm, Or.inr ⟨h2 ▸ hidx, ?_, h3 ▸ hsw⟩⟩
      rw [h2]
      exact h1
  have hmat1 : ∀ w ∈ (middleStep P idx st e).matLog, MatWriteOK P w := by
    rw [(middleStep_mat P idx e he st).2]
    exact foldl_rec _ (fun s => ∀ w ∈ s.matLog, MatWriteOK P w) _ st hmat
      (fun s e2 he2 hs =>
        innerStep_matLog_sound P e.cid e.other s e2 he2 hn hT hs)
  refine ⟨hmat1, ?_⟩
  rw [middleStep_vecLog P idx e he st]
  by_cases hc : e.cpos = 0 ∨ P.nptl_local ≤ (conOf P.cs e.cid).a ∨
      P.nptl_local ≤ (conOf P.cs e.cid).b
  · rw [if_pos hc]
    intro w hw
    rcases List.mem_append.mp hw with h | h
    · exact hvec w h
    · rw [List.mem_singleton] at h
      subst h
      refine ⟨hn, rfl, ?_⟩
      rcases hch with ⟨h1, -, hcpos⟩ | ⟨h1, h2, -, hcpos⟩
      · exact Or.inl ⟨h1.symm, hidx⟩
      · refine Or.inr ⟨h2.symm, hidx, h1, ?_⟩
        rcases hc with hc0 | hca | hcb
        · rw [hcpos] at hc0
          cases hc0
        · exact hca
        · rw [h2] at hcb
          omega
  · rw [if_neg hc]
    exact hvec

/-- Every store logged by the whole fill pass is sound. -/
theorem gpu_fill_log_sound (P : FillParams) :
    (∀ w ∈ (gpu_fill_matrix_vector P).matLog, MatWriteOK P w) ∧
    (∀ w ∈ (gpu_fill_matrix_vector P).vecLog, VecWriteOK P w) := by
  unfold gpu_fill_matrix_vector fill_matrix_vector_kernel
  refine foldl_rec _ (fun (s : FillState) => (∀ w ∈ s.matLog, MatWriteOK P w) ∧
    (∀ w ∈ s.vecLog, VecWriteOK P w)) _ _
    ⟨fun w hw => absurd hw (List.not_mem_nil w),
     fun w hw => absurd hw (List.not_mem_nil w)⟩ ?_
  intro s idx hidx hs
  unfold fillThread
  exact foldl_rec _ (fun (s : FillState) => (∀ w ∈ s.matLog, MatWriteOK P w) ∧
    (∀ w ∈ s.vecLog, VecWriteOK P w)) _ s hs
    (fun s2 e he hs2 =>
      middleStep_log_sound P idx (List.mem_range.mp hidx) e he s2 hs2.1 hs2.2)

/-! ### Monotonicity of the store logs along the pass. -/

theorem innerFold_matLog_mono (P : FillParams) (na nb : ℕ) (qn : Vec3)
    (ma mb : ℚ) (q n : ℕ) (w : MatWrite) :
    ∀ (l : List CEntry) (st : FillState), w ∈ st.matLog →
    w ∈ (l.foldl (innerStep P na nb qn ma mb q n) st).matLog := by
  intro l
  induction l with
  | nil => intro st h; exact h
  | cons e t ih =>
      intro st h
      simp only [List.foldl_cons]
      exact ih _ (List.mem_append_left _ h)

theorem middleStep_matLog_mono (P : FillParams) (idx : ℕ) (e : CEntry)
    (st : FillState) (w : MatWrite) (h : w ∈ st.matLog) :
    w ∈ (middleStep P idx st e).matLog := by
  simp only [middleStep]
  by_cases hc : e.cpos = 0 ∨
      P.nptl_local ≤ (if e.cpos = 0 then (idx, e.other) else (e.other, idx)).1 ∨
      P.nptl_local ≤ (if e.cpos = 0 then (idx, e.other) else (e.other, idx)).2
  · rw [if_pos hc]
    exact innerFold_matLog_mono P _ _ _ _ _ _ _ w _ st h
  · rw [if_neg hc]
    exact innerFold_matLog_mono P _ _ _ _ _ _ _ w _ st h

theorem middleFold_matLog_mono (P : FillParams) (idx : ℕ) (w : MatWrite) :
    ∀ (l : List CEntry) (st : FillState), w ∈ st.matLog →
    w ∈ (l.foldl (middleStep P idx) st).matLog := by
  intro l
  induction l with
  | nil => intro st h; exact h
  | cons e t ih =>
      intro st h
      simp only [List.foldl_cons]
      exact ih _ (middleStep_matLog_mono P idx e st w h)

theorem threadFold_matLog_mono (P : FillParams) (w : MatWrite) :
    ∀ (l : List ℕ) (st : FillState), w ∈ st.matLog →
    w ∈ (l.foldl (fillThread P) st).matLog := by
  intro l
  induction l with
  | nil => intro st h; exact h
  | cons idx t ih =>
      intro st h
      simp only [List.foldl_cons]
      exact ih _ (middleFold_matLog_mono P idx w _ st h)

/-! ### Completeness: every touched cell is stored. -/

theorem clist_mem_a (cs : List Constraint) (p j : ℕ) (hj : j < cs.length)
    (ha : (conOf cs j).a = p) :
    (⟨(conOf cs j).b, j, 0⟩ : CEntry) ∈ clist cs p := by
  have := clistAux_mem_a p cs 0 j hj ha
  simp only [Nat.zero_add] at this
  exact this

theorem clist_mem_b (cs : List Constraint) (p j : ℕ) (hj : j < cs.length)
    (ha : (conOf cs j).a ≠ p) (hb : (conOf cs j).b = p) :
    (⟨(conOf cs j).a, j, 1⟩ : CEntry) ∈ clist cs p := by
  have := clistAux_mem_b p cs 0 j hj ha hb
  simp only [Nat.zero_add] at this
  exact this

theorem clist_entry_exists (cs : List Constraint) (m q : ℕ)
    (hm : m < cs.length) (hsw : sharesWith cs m q) :
    ∃ e2 ∈ clist cs q, e2.cid = m := by
  by_cases h : (conOf cs m).a = q
  · exact ⟨⟨(conOf cs m).b, m, 0⟩, clist_mem_a cs q m hm h, rfl⟩
  · have hb : (conOf cs m).b = q := hsw.resolve_left h
    exact ⟨⟨(conOf cs m).a, m, 1⟩, clist_mem_b cs q m hm h hb, rfl⟩

theorem fill_write_mem (P : FillParams) (p : ℕ) (hp : p < P.nptl_local)
    (e : CEntry) (he : e ∈ clist P.cs p) (e2 : CEntry)
    (he2 : e2 ∈ clist P.cs e.other) :
    (⟨e.cid, e2.cid, matValue P e.cid e2.cid⟩ : MatWrite) ∈
      (gpu_fill_matrix_vector P).matLog := by
  unfold gpu_fill_matrix_vector fill_matrix_vector_kernel
  obtain ⟨l1, l2, hsplit⟩ := List.append_of_mem (List.mem_range.mpr hp)
  rw [hsplit, List.foldl_append, List.foldl_cons]
  apply threadFold_matLog_mono
  show _ ∈ (fillThread P _ p).matLog
  unfold fillThread
  obtain ⟨m1, m2, hsplit2⟩ := List.append_of_mem he
  rw [hsplit2, List.foldl_append, List.foldl_cons]
  apply middleFold_matLog_mono
  rw [(middleStep_mat P p e he _).2]
  obtain ⟨k1, k2, hsplit3⟩ := List.append_of_mem he2
  rw [hsplit3, List.foldl_append, List.foldl_cons]
  apply innerFold_matLog_mono
  rw [innerStep_eq P _ _ _ _ _ _ _ _ e2 he2]
  exact List.mem_append_right _ (List.mem_singleton_self _)

theorem fill_matLog_complete (P : FillParams) (n m : ℕ)
    (ht : touched P n m) :
    (⟨n, m, matValue P n m⟩ : MatWrite) ∈
      (gpu_fill_matrix_vector P).matLog := by
  obtain ⟨hn, hm, hc⟩ := ht
  rcases hc with ⟨ha, hsw⟩ | ⟨hb, hab, hsw⟩
  · have he : (⟨(conOf P.cs n).b, n, 0⟩ : CEntry) ∈
        clist P.cs (conOf P.cs n).a := clist_mem_a P.cs _ n hn rfl
    obtain ⟨e2, he2, hcid⟩ := clist_entry_exists P.cs m (conOf P.cs n).b hm hsw
    have := fill_write_mem P (conOf P.cs n).a ha ⟨(conOf P.cs n).b, n, 0⟩ he
      e2 he2
    rw [hcid] at this
    exact this
  · have he : (⟨(conOf P.cs n).a, n, 1⟩ : CEntry) ∈
        clist P.cs (conOf P.cs n).b := clist_mem_b P.cs _ n hn hab rfl
    obtain ⟨e2, he2, hcid⟩ := clist_entry_exists P.cs m (conOf P.cs n).a hm hsw
    have := fill_write_mem P (conOf P.cs n).b hb ⟨(conOf P.cs n).a, n, 1⟩ he
      e2 he2
    rw [hcid] at this
    exact this

/-! ### Decoding a flat column-major index back to its (n, m) pair. -/

theorem matKey_decode (nc : ℕ) (w : MatWrite) (n m : ℕ) (hn : n < nc)
    (hwn : w.n < nc) (hk : matKey nc w = m * nc + n) :
    w.n = n ∧ w.m = m := by
  unfold matKey at hk
  have hnc : 0 < nc := lt_of_le_of_lt (Nat.zero_le n) hn
  have h1 : (w.m * nc + w.n) % nc = w.n := by
    rw [Nat.add_comm, Nat.add_mul_mod_self_right, Nat.mod_eq_of_lt hwn]
  have h2 : (m * nc + n) % nc = n := by
    rw [Nat.add_comm, Nat.add_mul_mod_self_right, Nat.mod_eq_of_lt hn]
  have hwn_eq : w.n = n := by rw [← h1, ← h2, hk]
  refine ⟨hwn_eq, ?_⟩
  rw [hwn_eq] at hk
  exact Nat.eq_of_mul_eq_mul_right hnc (Nat.add_right_cancel hk)

/-- Final matrix characterization: cell (n, m), stored column-major at
flat index m·N_c + n, holds the four-case value when some thread
touches the pair, and 0 (from the memset) otherwise. -/
theorem fill_matrix_char (P : FillParams) (n m : ℕ) (hn : n < P.cs.length)
    (hm : m < P.cs.length) :
    (gpu_fill_matrix_vector P).matrix (m * P.cs.length + n) =
      if touched P n m then matValue P n m else 0 := by
  rw [(gpu_fill_inv P).1]
  by_cases ht : touched P n m
  · rw [if_pos ht]
    apply applyMat_last
    · intro w hw hk
      obtain ⟨hwn, hwm, -, hval⟩ := (gpu_fill_log_sound P).1 w hw
      obtain ⟨h1, h2⟩ := matKey_decode P.cs.length w n m hn hwn hk
      rw [hval, h1, h2]
    · exact ⟨⟨n, m, matValue P n m⟩, fill_matLog_complete P n m ht, rfl⟩
  · rw [if_neg ht]
    apply applyMat_none
    intro w hw hk
    obtain ⟨hwn, hwm, hwt, -⟩ := (gpu_fill_log_sound P).1 w hw
    obtain ⟨h1, h2⟩ := matKey_decode P.cs.length w n m hn hwn hk
    rw [h1, h2] at hwt
    exact ht hwt

end Hoomd

namespace Hoomd

/-- A two-particle system with one constraint between particles 0 and 1,
both local, unit masses, separated by unit distance along x, at rest,
with zero net force: the concrete input for the C2 counterexample. -/
def P0cx : FillParams :=
  ⟨[⟨0, 1, 1⟩], 2,
   fun i => if i = 0 then ⟨0, 0, 0, 0⟩ else ⟨1, 0, 0, 0⟩,
   fun _ => ⟨0, 0, 0, 1⟩,
   fun _ => ⟨0, 0, 0, 0⟩, 0, openBox⟩

/-- C2 counterexample: with a single constraint between two local
particles, the two threads (one per endpoint) each produce a (c_i, c_j)
contribution of 8 targeting the same cell (0, 0) — the log records two
stores — yet the final cell holds 8, the per-pair value, not their sum
16: the kernel stores with assignment (d_matrix[...] = mat_element),
so multiple contributions targeting the same cell are overwritten, not
summed, refuting the claim as stated. -/
theorem c2_counterexample :
    ((gpu_fill_matrix_vector P0cx).matLog.countP
        (fun w => w.n == 0 && w.m == 0)) = 2 ∧
    (gpu_fill_matrix_vector P0cx).matrix 0 = 8 ∧
    (gpu_fill_matrix_vector_summed P0cx).matrix 0 = 16 ∧
    (gpu_fill_matrix_vector P0cx).matrix 0 ≠
      (gpu_fill_matrix_vector_summed P0cx).matrix 0 := by
  have h8 : (gpu_fill_matrix_vector P0cx).matrix 0 = 8 := by
    norm_num [gpu_fill_matrix_vector, fill_matrix_vector_kernel, fillThread,
      middleStep, innerStep, clist, clistAux, conOf, defaultConstraint, P0cx,
      openBox, s4v, dot, vecValue, List.range_succ, Function.update]
  have h16 : (gpu_fill_matrix_vector_summed P0cx).matrix 0 = 16 := by
    norm_num [gpu_fill_matrix_vector_summed, middleStepSummed, innerStepSummed,
      clist, clistAux, conOf, defaultConstraint, P0cx, openBox, s4v, dot,
      vecValue, List.range_succ, Function.update]
  refine ⟨?_, h8, h16, ?_⟩
  · norm_num [gpu_fill_matrix_vector, fill_matrix_vector_kernel, fillThread,
      middleStep, innerStep, clist, clistAux, conOf, defaultConstraint, P0cx,
      openBox, s4v, dot, vecValue, List.range_succ, Function.update]
  · rw [h8, h16]
    norm_num

/-- C2 (amended): within a single (c_i, c_j) pair the up to four
endpoint-role contributions ±4·(q_n·r_m)/mass are summed into one
value, which depends only on the pair (n, m); the store into cell
(n, m) is an assignment, so when several pairs target the same cell
each store carries that same per-pair value and the final cell equals
it — not the sum over pairs — and an untouched cell stays 0. -/
theorem c2_matrix_assignment_of_pair_value (P : FillParams) (n m : ℕ)
    (hn : n < P.cs.length) (hm : m < P.cs.length) :
    (∀ w ∈ (gpu_fill_matrix_vector P).matLog, w.n = n → w.m = m →
      w.value = matValue P n m) ∧
    (gpu_fill_matrix_vector P).matrix (m * P.cs.length + n) =
      if touched P n m then matValue P n m else 0 := by
  refine ⟨?_, fill_matrix_char P n m hn hm⟩
  intro w hw h1 h2
  have hv := ((gpu_fill_log_sound P).1 w hw).2.2.2
  rw [hv, h1, h2]

/-- Witness for the amended C2 at the concrete two-particle input. -/
theorem c2_matrix_assignment_of_pair_value_witness :
    ((0 : ℕ) < P0cx.cs.length ∧ (0 : ℕ) < P0cx.cs.length) ∧
    (gpu_fill_matrix_vector P0cx).matrix (0 * P0cx.cs.length + 0) =
      if touched P0cx 0 0 then matValue P0cx 0 0 else 0 := by
  refine ⟨⟨by decide, by decide⟩, ?_⟩
  exact (c2_matrix_assignment_of_pair_value P0cx 0 0 (by decide) (by decide)).2

theorem touched_shares (P : FillParams) (n m : ℕ) (ht : touched P n m) :
    sharesEndpoint P.cs n m := by
  obtain ⟨-, -, hc⟩ := ht
  rcases hc with ⟨-, hsw⟩ | ⟨-, -, hsw⟩
  · rcases hsw with h | h
    · exact Or.inr (Or.inr (Or.inl h.symm))
    · exact Or.inr (Or.inr (Or.inr h.symm))
  · rcases hsw with h | h
    · exact Or.inl h.symm
    · exact Or.inr (Or.inl h.symm)

/-- C10: after a fill pass, every matrix cell whose flat index is not
the column-major index of any (n, m) pair of constraints sharing an
endpoint equals 0, and every right-hand-side entry not stored by any
thread equals 0 — the memsets zero both before the kernel and the
kernel stores only to cells of endpoint-sharing pairs. -/
theorem c10_untouched_storage_zero (P : FillParams) (k : ℕ)
    (hmat : ∀ n m, n < P.cs.length → m < P.cs.length →
      k = m * P.cs.length + n → ¬ sharesEndpoint P.cs n m) :
    (gpu_fill_matrix_vector P).matrix k = 0 ∧
    ∀ j, (∀ w ∈ (gpu_fill_matrix_vector P).vecLog, w.cid ≠ j) →
      (gpu_fill_matrix_vector P).vec j = 0 := by
  constructor
  · rw [(gpu_fill_inv P).1]
    apply applyMat_none
    intro w hw hkey
    obtain ⟨hwn, hwm, hwt, -⟩ := (gpu_fill_log_sound P).1 w hw
    exact hmat w.n w.m hwn hwm (by rw [← hkey]; rfl) (touched_shares P w.n w.m hwt)
  · intro j hj
    rw [(gpu_fill_inv P).2]
    exact applyVec_none j _ _ hj

/-- Witness for C10: with the single constraint (0,1), flat index 5 is
outside any pair index and vector entry 3 is never stored. -/
theorem c10_untouched_storage_zero_witness :
    (gpu_fill_matrix_vector P0cx).matrix 5 = 0 ∧
    (gpu_fill_matrix_vector P0cx).vec 3 = 0 := by
  have h := c10_untouched_storage_zero P0cx 5 (by
    intro n m hn hm hk
    have h1 : n = 0 := by
      have : P0cx.cs.length = 1 := by decide
      omega
    have h2 : m = 0 := by
      have : P0cx.cs.length = 1 := by decide
      omega
    subst h1
    subst h2
    have : P0cx.cs.length = 1 := by decide
    omega)
  refine ⟨h.1, h.2 3 ?_⟩
  intro w hw
  have h1 := ((gpu_fill_log_sound P0cx).2 w hw).1
  have h2 : P0cx.cs.length = 1 := by decide
  omega

end Hoomd

namespace Hoomd

/-! ### Counting the vector stores: each constraint with a local
endpoint is stored exactly once. -/

/-- The store condition of the vector component for entry e, with the
roles resolved: this thread is the primary owner (cpos = 0) or one of
the endpoints is outside the local range. -/
def vecCondB (P : FillParams) (e : CEntry) : Bool :=
  decide (e.cpos = 0 ∨ P.nptl_local ≤ (conOf P.cs e.cid).a ∨
    P.nptl_local ≤ (conOf P.cs e.cid).b)

/-- The thread that stores the vector component of constraint n: its a
endpoint when local, otherwise its b endpoint. -/
def dwOf (P : FillParams) (n : ℕ) : ℕ :=
  if (conOf P.cs n).a < P.nptl_local then (conOf P.cs n).a
  else (conOf P.cs n).b

theorem fold_vec_countP (P : FillParams) (idx n : ℕ) :
    ∀ (l : List CEntry), (∀ e ∈ l, e ∈ clist P.cs idx) →
    ∀ (st : FillState),
    ((l.foldl (middleStep P idx) st).vecLog.countP (fun w => w.cid == n)) =
      st.vecLog.countP (fun w => w.cid == n) +
      l.countP (fun e => vecCondB P e && (e.cid == n)) := by
  intro l
  induction l with
  | nil => intro _ st; simp
  | cons e t ih =>
      intro hsub st
      simp only [List.foldl_cons]
      rw [ih (fun x hx => hsub x (List.mem_cons_of_mem e hx))]
      rw [List.countP_cons]
      have hvl := middleStep_vecLog P idx e (hsub e (List.mem_cons_self e t)) st
      by_cases hc : e.cpos = 0 ∨ P.nptl_local ≤ (conOf P.cs e.cid).a ∨
          P.nptl_local ≤ (conOf P.cs e.cid).b
      · rw [hvl, if_pos hc, List.countP_append]
        have hcB : vecCondB P e = true := by
          unfold vecCondB
          exact decide_eq_true hc
        rw [hcB]
        by_cases hcid : e.cid = n
        · simp [List.countP_cons, hcid]
          omega
        · simp [List.countP_cons, hcid]
      · rw [hvl, if_neg hc]
        have hcB : vecCondB P e = false := by
          unfold vecCondB
          exact decide_eq_false hc
        rw [hcB]
        simp

theorem kernel_vec_countP (P : FillParams) (n : ℕ) :
    ∀ (l : List ℕ) (st : FillState),
    ((l.foldl (fillThread P) st).vecLog.countP (fun w => w.cid == n)) =
      st.vecLog.countP (fun w => w.cid == n) +
      (l.map (fun idx =>
        (clist P.cs idx).countP (fun e => vecCondB P e && (e.cid == n)))).sum := by
  intro l
  induction l with
  | nil => intro st; simp
  | cons idx t ih =>
      intro st
      simp only [List.foldl_cons, List.map_cons, List.sum_cons]
      rw [ih]
      unfold fillThread
      rw [fold_vec_countP P idx n (clist P.cs idx) (fun e he => he) st]
      omega

theorem clist_filter_cid (cs : List Constraint) (p j : ℕ)
    (hj : j < cs.length) :
    (clist cs p).filter (fun e => e.cid == j) =
      (if (conOf cs j).a = p then [⟨(conOf cs j).b, j, 0⟩]
       else if (conOf cs j).b = p then [⟨(conOf cs j).a, j, 1⟩]
       else []) := by
  have := clistAux_filter_cid p cs 0 j hj
  simp only [Nat.zero_add] at this
  exact this

theorem threadCount_eval (P : FillParams) (n idx : ℕ) (hn : n < P.cs.length)
    (hidx : idx < P.nptl_local) :
    (clist P.cs idx).countP (fun e => vecCondB P e && (e.cid == n)) =
      if idx = dwOf P n then 1 else 0 := by
  have hsplit : (clist P.cs idx).countP (fun e => vecCondB P e && (e.cid == n)) =
      ((clist P.cs idx).filter (fun e => e.cid == n)).countP (vecCondB P) := by
    rw [List.countP_filter]
  rw [hsplit, clist_filter_cid P.cs idx n hn]
  by_cases ha : (conOf P.cs n).a = idx
  · rw [if_pos ha]
    have hcB : vecCondB P (⟨(conOf P.cs n).b, n, 0⟩ : CEntry) = true := by
      unfold vecCondB
      exact decide_eq_true (Or.inl rfl)
    have hdw : dwOf P n = idx := by
      unfold dwOf
      rw [if_pos (ha ▸ hidx)]
      exact ha
    simp [List.countP_cons, hcB, hdw]
  · by_cases hb : (conOf P.cs n).b = idx
    · rw [if_neg ha, if_pos hb]
      by_cases hga : P.nptl_local ≤ (conOf P.cs n).a
      · have hcB : vecCondB P (⟨(conOf P.cs n).a, n, 1⟩ : CEntry) = true := by
          unfold vecCondB
          exact decide_eq_true (Or.inr (Or.inl hga))
        have hdw : dwOf P n = idx := by
          unfold dwOf
          rw [if_neg (by omega)]
          exact hb
        simp [List.countP_cons, hcB, hdw]
      · have hcB : vecCondB P (⟨(conOf P.cs n).a, n, 1⟩ : CEntry) = false := by
          unfold vecCondB
          apply decide_eq_false
          intro hor
          rcases hor with h0 | hA | hB
          · simp at h0
          · simp at hA
            exact hga hA
          · simp at hB
            rw [hb] at hB
            omega
        have hdw : ¬ (idx = dwOf P n) := by
          unfold dwOf
          rw [if_pos (by omega)]
          intro h
          exact ha h.symm
        simp [List.countP_cons, hcB, hdw]
    · rw [if_neg ha, if_neg hb]
      have hdw : ¬ (idx = dwOf P n) := by
        unfold dwOf
        by_cases h : (conOf P.cs n).a < P.nptl_local
        · rw [if_pos h]
          intro heq
          exact ha heq.symm
        · rw [if_neg h]
          intro heq
          exact hb heq.symm
      simp [hdw]

theorem sum_indicator (x : ℕ) :
    ∀ (k : ℕ), ((List.range k).map (fun t => if t = x then 1 else 0)).sum =
      if x < k then 1 else 0 := by
  intro k
  induction k with
  | zero => simp
  | succ k ih =>
      rw [List.range_succ, List.map_append, List.sum_append, ih]
      simp only [List.map_cons, List.map_nil, List.sum_cons, List.sum_nil]
      by_cases h1 : x < k
      · rw [if_pos h1, if_neg (show ¬ k = x by omega),
          if_pos (show x < k + 1 by omega)]
        omega
      · by_cases h2 : x = k
        · rw [if_neg h1, if_pos h2.symm, if_pos (show x < k + 1 by omega)]
          omega
        · rw [if_neg h1, if_neg (show ¬ k = x by omega),
            if_neg (show ¬ x < k + 1 by omega)]
          omega

/-- The fill pass stores the vector component of a constraint with a
local endpoint exactly once. -/
theorem gpu_fill_vec_count (P : FillParams) (n : ℕ) (hn : n < P.cs.length)
    (hloc : (conOf P.cs n).a < P.nptl_local ∨
      (conOf P.cs n).b < P.nptl_local) :
    (gpu_fill_matrix_vector P).vecLog.countP (fun w => w.cid == n) = 1 := by
  unfold gpu_fill_matrix_vector fill_matrix_vector_kernel
  rw [kernel_vec_countP P n (List.range P.nptl_local) _]
  have hmap : (List.range P.nptl_local).map (fun idx =>
      (clist P.cs idx).countP (fun e => vecCondB P e && (e.cid == n))) =
      (List.range P.nptl_local).map (fun t => if t = dwOf P n then 1 else 0) :=
    List.map_congr_left (fun idx hidx =>
      threadCount_eval P n idx hn (List.mem_range.mp hidx))
  rw [hmap, sum_indicator]
  have hdw : dwOf P n < P.nptl_local := by
    unfold dwOf
    by_cases h : (conOf P.cs n).a < P.nptl_local
    · rw [if_pos h]
      exact h
    · rw [if_neg h]
      rcases hloc with h1 | h1
      · exact absurd h1 h
      · exact h1
  rw [if_pos hdw]
  simp

end Hoomd

namespace Hoomd

/-- C7: for every constraint n with at least one local endpoint, the
right-hand-side entry d_vec[n] is stored exactly once per fill pass; the
store is by the thread of the primary owner (the a endpoint, cpos = 0)
or by the local b endpoint when its partner lies outside the local
range; and the stored value is
(|q_n|² − d_n²)/Δt² + 2·q_n·(F_a/m_a − F_b/m_b). -/
theorem c7_rhs_written_once (P : FillParams) (n : ℕ) (hn : n < P.cs.length)
    (hloc : (conOf P.cs n).a < P.nptl_local ∨
      (conOf P.cs n).b < P.nptl_local) :
    (gpu_fill_matrix_vector P).vecLog.countP (fun w => w.cid == n) = 1 ∧
    (∀ w ∈ (gpu_fill_matrix_vector P).vecLog, w.cid = n →
      ((w.writer = (conOf P.cs n).a ∧ w.writer < P.nptl_local) ∨
       (w.writer = (conOf P.cs n).b ∧ w.writer < P.nptl_local ∧
         P.nptl_local ≤ (conOf P.cs n).a))) ∧
    (gpu_fill_matrix_vector P).vec n =
      (dot (qnOf P n) (qnOf P n) - (conOf P.cs n).d * (conOf P.cs n).d)
        / P.deltaT / P.deltaT
      + 2 * dot (qnOf P n)
          ((1 / maOf P n) • s4v (P.netforce (conOf P.cs n).a)
            - (1 / mbOf P n) • s4v (P.netforce (conOf P.cs n).b)) := by
  have hcount := gpu_fill_vec_count P n hn hloc
  refine ⟨hcount, ?_, ?_⟩
  · intro w hw hcid
    obtain ⟨-, -, hch⟩ := (gpu_fill_log_sound P).2 w hw
    rw [hcid] at hch
    rcases hch with ⟨h1, h2⟩ | ⟨h1, h2, -, h4⟩
    · exact Or.inl ⟨h1, h2⟩
    · exact Or.inr ⟨h1, h2, h4⟩
  · have hv : (gpu_fill_matrix_vector P).vec n = refVecValue P n := by
      rw [(gpu_fill_inv P).2]
      apply applyVec_last
      · intro w hw hcid
        have := ((gpu_fill_log_sound P).2 w hw).2.1
        rw [this, hcid]
      · have hpos : 0 < (gpu_fill_matrix_vector P).vecLog.countP
            (fun w => w.cid == n) := by omega
        obtain ⟨w, hw, hp⟩ := List.countP_pos_iff.mp hpos
        exact ⟨w, hw, by simpa using hp⟩
    exact hv

/-- Witness for C7 at the concrete two-particle input: constraint 0 is
stored exactly once and holds the formula value. -/
theorem c7_rhs_written_once_witness :
    ((0 : ℕ) < P0cx.cs.length ∧
     ((conOf P0cx.cs 0).a < P0cx.nptl_local ∨
      (conOf P0cx.cs 0).b < P0cx.nptl_local)) ∧
    (gpu_fill_matrix_vector P0cx).vecLog.countP (fun w => w.cid == 0) = 1 ∧
    (gpu_fill_matrix_vector P0cx).vec 0 =
      (dot (qnOf P0cx 0) (qnOf P0cx 0) -
        (conOf P0cx.cs 0).d * (conOf P0cx.cs 0).d)
        / P0cx.deltaT / P0cx.deltaT
      + 2 * dot (qnOf P0cx 0)
          ((1 / maOf P0cx 0) • s4v (P0cx.netforce (conOf P0cx.cs 0).a)
            - (1 / mbOf P0cx 0) • s4v (P0cx.netforce (conOf P0cx.cs 0).b)) := by
  refine ⟨⟨by decide, by decide⟩, ?_, ?_⟩
  · exact (c7_rhs_written_once P0cx 0 (by decide) (by decide)).1
  · exact (c7_rhs_written_once P0cx 0 (by decide) (by decide)).2.2

end Hoomd

namespace Hoomd

/-!
## Constraint force writeback (gpu_fill_constraint_forces_kernel)
-/

/-- Inputs of gpu_compute_constraint_forces: the constraint list, local
particle count, positions, solved Lagrange multipliers and the box. -/
structure ForceParams where
  cs : List Constraint
  nptl_local : ℕ
  pos : ℕ → Scalar4
  lagrange : ℕ → ℚ
  box : Box

/-- One iteration of the constraint loop of
gpu_fill_constraint_forces_kernel: resolve the endpoint roles, build
the minimum-image separation, and accumulate ∓2·λ_n·r_n with the minus
sign for the a endpoint (cpos = 0). -/
def forceStep (FP : ForceParams) (idx : ℕ) (f : Vec3) (e : CEntry) : Vec3 :=
  let n := e.cid
  let roles : ℕ × ℕ := if e.cpos = 0 then (idx, e.other) else (e.other, idx)
  let rn := FP.box.minImage (s4v (FP.pos roles.1) - s4v (FP.pos roles.2))
  if idx < FP.nptl_local then
    (if e.cpos = 0 then f + (-(2 * FP.lagrange n)) • rn
     else f + (2 * FP.lagrange n) • rn)
  else f

/-- The force accumulated by the thread of particle idx. -/
def force_thread_f (FP : ForceParams) (idx : ℕ) : Vec3 :=
  (clist FP.cs idx).foldl (forceStep FP idx) (0, 0, 0)

/-- gpu_fill_constraint_forces_kernel over all local-particle threads:
each thread stores make_scalar4(f.x, f.y, f.z, 0) at its own index. -/
def gpu_fill_constraint_forces (FP : ForceParams) (d_force : ℕ → Scalar4) :
    ℕ → Scalar4 :=
  (List.range FP.nptl_local).foldl
    (fun F idx =>
      Function.update F idx
        (make_scalar4 (force_thread_f FP idx).1 (force_thread_f FP idx).2.1
          (force_thread_f FP idx).2.2 0))
    d_force

/-- The minimum-image separation pos(a) − pos(b) of a constraint. -/
def rOfC (FP : ForceParams) (c : Constraint) : Vec3 :=
  FP.box.minImage (s4v (FP.pos c.a) - s4v (FP.pos c.b))

/-- Reference force on particle i: the sum over the constraint list of
∓2·λ_n·r_n for each constraint incident to i, minus sign when i is the
a endpoint. -/
def refForceAux (FP : ForceParams) (i : ℕ) : List Constraint → ℕ → Vec3
  | [], _ => (0, 0, 0)
  | c :: rest, n =>
      (if c.a = i then (-(2 * FP.lagrange n)) • rOfC FP c
       else if c.b = i then (2 * FP.lagrange n) • rOfC FP c
       else (0, 0, 0))
      + refForceAux FP i rest (n + 1)

/-- Reference force on particle i over the whole constraint list. -/
def refConstraintForce (FP : ForceParams) (i : ℕ) : Vec3 :=
  refForceAux FP i FP.cs 0

theorem vec3_zero : ((0, 0, 0) : Vec3) = 0 := rfl

theorem forceStep_fold (FP : ForceParams) (i : ℕ) (hi : i < FP.nptl_local) :
    ∀ (cs : List Constraint) (k : ℕ) (f0 : Vec3),
    (clistAux i cs k).foldl (forceStep FP i) f0 = f0 + refForceAux FP i cs k := by
  intro cs
  induction cs with
  | nil =>
      intro k f0
      show f0 = f0 + refForceAux FP i [] k
      rw [refForceAux, vec3_zero, add_zero]
  | cons c rest ih =>
      intro k f0
      simp only [clistAux, List.foldl_append]
      by_cases h1 : c.a = i
      · rw [if_pos h1]
        simp only [List.foldl_cons, List.foldl_nil]
        rw [ih]
        have hstep : forceStep FP i f0 ⟨c.b, k, 0⟩ =
            f0 + (-(2 * FP.lagrange k)) • rOfC FP c := by
          simp only [forceStep, rOfC, h1]
          rw [if_pos hi]
          simp
        rw [hstep, refForceAux, if_pos h1, add_assoc]
      · rw [if_neg h1]
        by_cases h2 : c.b = i
        · rw [if_pos h2]
          simp only [List.foldl_cons, List.foldl_nil]
          rw [ih]
          have hstep : forceStep FP i f0 ⟨c.a, k, 1⟩ =
              f0 + (2 * FP.lagrange k) • rOfC FP c := by
            simp only [forceStep, rOfC, h2]
            rw [if_pos hi]
            simp
          rw [hstep, refForceAux, if_neg h1, if_pos h2, add_assoc]
        · rw [if_neg h2]
          simp only [List.foldl_nil]
          rw [ih, refForceAux, if_neg h1, if_neg h2, vec3_zero, zero_add]

/-- C8: for every local particle i, the force the writeback kernel
stores for i is make_scalar4 of the sum over the constraints incident
to i of ∓2·λ_n·r_n — minus when i is the a endpoint (cpos = 0), plus
when it is the b endpoint — with r_n the minimum-image separation
pos(a) − pos(b), and zero w component. -/
theorem c8_force_writeback (FP : ForceParams) (F0 : ℕ → Scalar4) (i : ℕ)
    (hi : i < FP.nptl_local) :
    gpu_fill_constraint_forces FP F0 i =
      make_scalar4 (refConstraintForce FP i).1 (refConstraintForce FP i).2.1
        (refConstraintForce FP i).2.2 0 := by
  have hval : force_thread_f FP i = refConstraintForce FP i := by
    unfold force_thread_f refConstraintForce clist
    rw [forceStep_fold FP i hi FP.cs 0 (0, 0, 0)]
    exact zero_add _
  unfold gpu_fill_constraint_forces
  exact (foldl_update_eq (fun t => t)
    (fun t => make_scalar4 (force_thread_f FP t).1 (force_thread_f FP t).2.1
      (force_thread_f FP t).2.2 0)
    (List.range FP.nptl_local) F0 i (List.mem_range.mpr hi)
    (fun s _ hks => by rw [show s = i from hks])).trans (by rw [hval])

/-- Witness for C8: two local particles with one constraint, unit
Lagrange multiplier. -/
theorem c8_force_writeback_witness :
    (0 : ℕ) <
      (⟨[⟨0, 1, 1⟩], 2,
        fun i => if i = 0 then ⟨0, 0, 0, 0⟩ else ⟨1, 0, 0, 0⟩,
        fun _ => 1, openBox⟩ : ForceParams).nptl_local ∧
    gpu_fill_constraint_forces
      ⟨[⟨0, 1, 1⟩], 2,
        fun i => if i = 0 then ⟨0, 0, 0, 0⟩ else ⟨1, 0, 0, 0⟩,
        fun _ => 1, openBox⟩ (fun _ => ⟨0, 0, 0, 0⟩) 0 =
      make_scalar4
        (refConstraintForce ⟨[⟨0, 1, 1⟩], 2,
          fun i => if i = 0 then ⟨0, 0, 0, 0⟩ else ⟨1, 0, 0, 0⟩,
          fun _ => 1, openBox⟩ 0).1
        (refConstraintForce ⟨[⟨0, 1, 1⟩], 2,
          fun i => if i = 0 then ⟨0, 0, 0, 0⟩ else ⟨1, 0, 0, 0⟩,
          fun _ => 1, openBox⟩ 0).2.1
        (refConstraintForce ⟨[⟨0, 1, 1⟩], 2,
          fun i => if i = 0 then ⟨0, 0, 0, 0⟩ else ⟨1, 0, 0, 0⟩,
          fun _ => 1, openBox⟩ 0).2.2 0 := by
  refine ⟨by decide, ?_⟩
  exact c8_force_writeback
    ⟨[⟨0, 1, 1⟩], 2,
      fun i => if i = 0 then ⟨0, 0, 0, 0⟩ else ⟨1, 0, 0, 0⟩,
      fun _ => 1, openBox⟩ (fun _ => ⟨0, 0, 0, 0⟩) 0 (by decide)

end Hoomd
